import Mathlib

/-!
# Land registry front end (`script.js`): a shallow embedding

The browser script is embedded as pure functions over explicit state.

* JavaScript strings are Lean strings, processed as lists of characters.
* JavaScript numbers are modelled by `JSNumber`: `NaN`, the two infinities and
  the finite binary64 values, each finite value being an integer number of
  units of `2^-1074` (every finite binary64 value is such a multiple).  The two
  zeros are identified: the script only ever tests `isNaN`, `< 0` and the sign
  of a difference.
* The document is modelled by the parts the script reads and writes: fields
  with their parent elements, table headers and rows, tooltip carriers, the
  local key-value store and the transport used by `fetch`.
-/

namespace LandRegistry

/-! ## Strings -/

/-- White space as understood by `String.prototype.trim`, by `\s` in a regular
expression and by the numeric parsers: the ECMAScript `WhiteSpace` and
`LineTerminator` code points. -/
def isJSWhitespace (c : Char) : Bool :=
  let n := c.toNat
  n == 0x09 || n == 0x0A || n == 0x0B || n == 0x0C || n == 0x0D || n == 0x20 ||
  n == 0xA0 || n == 0x1680 || (0x2000 ≤ n && n ≤ 0x200A) || n == 0x2028 ||
  n == 0x2029 || n == 0x202F || n == 0x205F || n == 0x3000 || n == 0xFEFF

/-- Strip trailing white space from a list of characters. -/
def trimEnd : List Char → List Char
  | [] => []
  | c :: cs =>
    match trimEnd cs with
    | [] => if isJSWhitespace c then [] else [c]
    | r => c :: r

/-- The `length` of a string: its number of UTF-16 code units. -/
def utf16Length (s : List Char) : Nat :=
  (s.map fun c => if c.toNat < 0x10000 then 1 else 2).sum

/-- The characters of `s.trim()`. -/
def jsTrim (s : String) : List Char :=
  trimEnd (s.toList.dropWhile isJSWhitespace)

/-! ## Numbers -/

/-- A JavaScript number.  `finite n` is the binary64 value `n * 2^-1074`. -/
inductive JSNumber where
  | nan : JSNumber
  | finite (units : Int) : JSNumber
  | posInf : JSNumber
  | negInf : JSNumber
  deriving DecidableEq

namespace JSNumber

/-- The global `isNaN` applied to a number. -/
def isNaN : JSNumber → Bool
  | nan => true
  | _ => false

/-- The test `x < 0`. -/
def ltZero : JSNumber → Bool
  | finite n => decide (n < 0)
  | negInf => true
  | _ => false

/-- The order `x ≤ y` on numbers; false as soon as one side is `NaN`. -/
def le : JSNumber → JSNumber → Bool
  | nan, _ => false
  | _, nan => false
  | negInf, _ => true
  | _, posInf => true
  | finite a, finite b => decide (a ≤ b)
  | finite _, negInf => false
  | posInf, finite _ => false
  | posInf, negInf => false

/-- Sign of the difference `a - b` as the sort primitive observes it: negative,
positive, or neither.  The difference of two infinities of the same sign and any
difference involving `NaN` is `NaN`, which a comparator result treats as `0`;
binary64 subtraction of finite values never rounds a non-zero difference to
zero, so its sign is the sign of the exact difference. -/
def subSign : JSNumber → JSNumber → Int
  | nan, _ => 0
  | _, nan => 0
  | finite a, finite b => Int.sign (a - b)
  | finite _, posInf => -1
  | finite _, negInf => 1
  | posInf, posInf => 0
  | posInf, _ => 1
  | negInf, negInf => 0
  | negInf, _ => -1

end JSNumber

/-- Round the quotient `n / d` to the nearest integer, ties to even. -/
def roundHalfEven (n d : Nat) : Nat :=
  let q := n / d
  let r := n % d
  if 2 * r < d then q
  else if d < 2 * r then q + 1
  else if q % 2 = 0 then q else q + 1

/-- For `2^53 ≤ fl`, the exponent `k` of the spacing `2^k` (in units) of the
binary64 values around `fl`: one more than the largest `j ≤ 2047` with
`2^(53+j) ≤ fl`, found bit by bit.  (From `k = 2046` on the value overflows.) -/
def ulpExponent (fl : Nat) : Nat :=
  [1024, 512, 256, 128, 64, 32, 16, 8, 4, 2, 1].foldl
    (fun j b => if 2 ^ (53 + j + b) ≤ fl then j + b else j) 0 + 1

/-- Round the non-negative rational `num / den` to binary64 (round to nearest,
ties to even).  The result is `none` on overflow to infinity and otherwise the
value in units of `2^-1074`. -/
def roundBinary64 (num den : Nat) : Option Nat :=
  let scaled := num * 2 ^ 1074
  let fl := scaled / den
  if fl < 2 ^ 53 then some (roundHalfEven scaled den)
  else
    let k := ulpExponent fl
    let v := roundHalfEven scaled (den * 2 ^ k) * 2 ^ k
    if 2 ^ 2098 ≤ v then none else some v

/-- The binary64 value of `± mant * 10 ^ exp10`. -/
def decimalToNumber (negative : Bool) (mant : Nat) (exp10 : Int) : JSNumber :=
  let r := if 0 ≤ exp10 then roundBinary64 (mant * 10 ^ exp10.toNat) 1
           else roundBinary64 mant (10 ^ (-exp10).toNat)
  match r with
  | none => if negative then .negInf else .posInf
  | some v => .finite (if negative then -(v : Int) else (v : Int))

/-- Decimal digit test. -/
def isDigit (c : Char) : Bool := '0' ≤ c && c ≤ '9'

/-- Value of a run of decimal digits. -/
def digitsValue (ds : List Char) : Nat :=
  ds.foldl (fun acc c => 10 * acc + (c.toNat - 48)) 0

/-- Scan an optional `ExponentPart` (`e`/`E`, optional sign, at least one digit).
Without a complete exponent part nothing is consumed. -/
def scanExponent (s : List Char) : Int × List Char :=
  match s with
  | [] => (0, s)
  | c :: t =>
    if c = 'e' ∨ c = 'E' then
      let signed : Bool × List Char :=
        match t with
        | '+' :: u => (false, u)
        | '-' :: u => (true, u)
        | _ => (false, t)
      let ds := signed.2.takeWhile isDigit
      if ds = [] then (0, s)
      else (if signed.1 then -(digitsValue ds : Int) else (digitsValue ds : Int),
            signed.2.dropWhile isDigit)
    else (0, s)

/-- The longest prefix of `s` that is a `StrUnsignedDecimalLiteral` other than
`Infinity`: mantissa, decimal exponent and the unread rest. -/
def scanUnsignedDecimal (s : List Char) : Option (Nat × Int × List Char) :=
  let ip := s.takeWhile isDigit
  match s.dropWhile isDigit with
  | '.' :: r2 =>
    let fp := r2.takeWhile isDigit
    if ip = [] ∧ fp = [] then none
    else
      let e := scanExponent (r2.dropWhile isDigit)
      some (digitsValue (ip ++ fp), e.1 - fp.length, e.2)
  | r1 =>
    if ip = [] then none
    else
      let e := scanExponent r1
      some (digitsValue ip, e.1, e.2)

/-- Split an optional leading sign off. -/
def scanSign : List Char → Bool × List Char
  | '+' :: t => (false, t)
  | '-' :: t => (true, t)
  | s => (false, s)

/-- The longest prefix of `s` that is a `StrDecimalLiteral`, as a number with
the unread rest. -/
def scanDecimalLiteral (s : List Char) : Option (JSNumber × List Char) :=
  let sg := scanSign s
  if "Infinity".toList.isPrefixOf sg.2 then
    some (if sg.1 then .negInf else .posInf, sg.2.drop 8)
  else
    match scanUnsignedDecimal sg.2 with
    | none => none
    | some (m, e, rest) => some (decimalToNumber sg.1 m e, rest)

/-- The global `parseFloat` on a string: leading white space is skipped, the
longest decimal-literal prefix is read, anything after it is ignored. -/
def parseFloat (s : List Char) : JSNumber :=
  match scanDecimalLiteral (s.dropWhile isJSWhitespace) with
  | none => .nan
  | some (v, _) => v

/-- Value of a digit in a radix up to 16, if it is one. -/
def radixDigit (radix : Nat) (c : Char) : Option Nat :=
  let n := c.toNat
  let v := if 48 ≤ n ∧ n ≤ 57 then n - 48
           else if 97 ≤ n ∧ n ≤ 102 then n - 87
           else if 65 ≤ n ∧ n ≤ 70 then n - 55
           else 16
  if v < radix then some v else none

/-- Value of a non-empty run of digits in the given radix. -/
def radixValue (radix : Nat) (ds : List Char) : Option Nat :=
  if ds = [] then none
  else ds.foldl (fun acc c => match acc, radixDigit radix c with
                              | some a, some v => some (radix * a + v)
                              | _, _ => none) (some 0)

/-- Conversion of a string to a number (`Number(s)`, the conversion the global
`isNaN` applies to its argument): white space is trimmed on both sides, the
empty string is `0`, and otherwise the whole text has to be a decimal literal
or a binary, octal or hexadecimal integer literal. -/
def toNumber (s : List Char) : JSNumber :=
  let t := trimEnd (s.dropWhile isJSWhitespace)
  let radixLit (radix : Nat) (ds : List Char) : JSNumber :=
    match radixValue radix ds with
    | none => .nan
    | some v => decimalToNumber false v 0
  match t with
  | [] => .finite 0
  | '0' :: 'x' :: ds => radixLit 16 ds
  | '0' :: 'X' :: ds => radixLit 16 ds
  | '0' :: 'o' :: ds => radixLit 8 ds
  | '0' :: 'O' :: ds => radixLit 8 ds
  | '0' :: 'b' :: ds => radixLit 2 ds
  | '0' :: 'B' :: ds => radixLit 2 ds
  | _ =>
    match scanDecimalLiteral t with
    | some (v, []) => v
    | _ => .nan

/-! ## Regular expressions

The one regular expression of the script, `/^[^\s@]+@[^\s@]+\.[^\s@]+$/`, is a
sequence of character classes, some of them under `+`, anchored at both ends.
-/

/-- One item of an anchored sequence: a character class, once or one-or-more times. -/
inductive RegexItem where
  | one (cls : Char → Bool) : RegexItem
  | plus (cls : Char → Bool) : RegexItem

/-- Does the whole input match the sequence of items (`^ items $`)?  Backtracking
over the lengths of the `+` runs. -/
def regexTest : List RegexItem → List Char → Bool
  | [], [] => true
  | [], _ :: _ => false
  | _ :: _, [] => false
  | .one p :: rs, c :: s => p c && regexTest rs s
  | .plus p :: rs, c :: s => p c && (regexTest rs s || regexTest (.plus p :: rs) s)

/-- The class `[^\s@]`. -/
def notSpaceOrAt (c : Char) : Bool := !(isJSWhitespace c) && c != '@'

/-- The pattern `/^[^\s@]+@[^\s@]+\.[^\s@]+$/`. -/
def emailRegex : List RegexItem :=
  [.plus notSpaceOrAt, .one (· == '@'), .plus notSpaceOrAt, .one (· == '.'), .plus notSpaceOrAt]

/-! ## Form validation -/

/-- A form control as the script sees it: `name`, `value`, the `type` property
and the presence of the `required` attribute. -/
structure Field where
  name : String
  value : String
  type : String
  required : Bool
  deriving DecidableEq

/-- A child of a field's parent element: a form control, an inline error message
(`div.field-error` with its text), or any other element. -/
inductive Node where
  | field (f : Field) : Node
  | fieldError (text : String) : Node
  | other : Node
  deriving DecidableEq

/-- A parent element, given by its children in document order. -/
abbrev Container := List Node

/-- A form: its field-holding parent elements in document order.  The parent
elements are siblings (none lies inside another), so that
`parent.querySelector('.field-error')` looks at the children of `parent`. -/
abbrev Form := List Container

/-- Is the node an inline error message? -/
def Node.isError : Node → Bool
  | .fieldError _ => true
  | _ => false

/-- Remove the first inline error message among the children, if there is one
(`parent.querySelector('.field-error')` followed by `remove()`). -/
def removeFirstError : Container → Container
  | [] => []
  | n :: ns => if n.isError then ns else n :: removeFirstError ns

/-- Apply `f` to the container with index `i`. -/
def modifyContainer (f : Container → Container) : Form → Nat → Form
  | [], _ => []
  | c :: cs, 0 => f c :: cs
  | c :: cs, i + 1 => c :: modifyContainer f cs i

/-- `clearFieldError(field)` for a field whose parent element is container `parent`.
(The border colour of the field is not part of the model.) -/
def clearFieldError (form : Form) (parent : Nat) : Form :=
  modifyContainer removeFirstError form parent

/-- `showFieldError(field, message)` for a field whose parent element is
container `parent`: clear, then append a new `div.field-error`. -/
def showFieldError (form : Form) (parent : Nat) (message : String) : Form :=
  modifyContainer (fun c => c ++ [Node.fieldError message]) (clearFieldError form parent) parent

/-- The checks of `validateField` (lines 92 to 125): the final values of
`isValid` and `errorMessage`. -/
def validateFieldRules (field : Field) : Bool × String :=
  let value := jsTrim field.value
  let r0 : Bool × String := (true, "")
  -- Required field validation
  let r1 := if field.required && value.isEmpty then (false, "This field is required") else r0
  -- Email validation
  let r2 :=
    if field.type = "email" && !value.isEmpty then
      if !(regexTest emailRegex value) then (false, "Please enter a valid email address") else r1
    else r1
  -- Number validation
  let r3 :=
    if field.type = "number" && !value.isEmpty then
      if (toNumber value).isNaN || (parseFloat value).ltZero then
        (false, "Please enter a valid positive number")
      else r2
    else r2
  -- Land ID validation
  let r4 :=
    if field.name = "land_id" && !value.isEmpty then
      if utf16Length value < 3 then (false, "Land ID must be at least 3 characters long") else r3
    else r3
  r4

/-- `validateField(field)` for a field whose parent element is container
`parent`: the document after the call and the returned `isValid`. -/
def validateField (form : Form) (parent : Nat) (field : Field) : Form × Bool :=
  let r := validateFieldRules field
  if !r.1 then (showFieldError form parent r.2, r.1)
  else (clearFieldError form parent, r.1)

/-- The required controls among the children of a parent element. -/
def requiredIn (c : Container) : List Field :=
  c.filterMap fun n => match n with
    | .field f => if f.required then some f else none
    | _ => none

/-- `form.querySelectorAll('input[required], select[required], textarea[required]')`:
the required controls in document order, each with the index of its parent,
counting parents from `start`. -/
def requiredFields : Form → Nat → List (Nat × Field)
  | [], _ => []
  | c :: cs, start => (requiredIn c).map (fun f => (start, f)) ++ requiredFields cs (start + 1)

/-- The body of the `forEach` in `validateForm` (lines 82 to 86): validate one
field against the document as it is, and clear `isValid` when it fails. -/
def validateStep (st : Form × Bool) (pf : Nat × Field) : Form × Bool :=
  let r := validateField st.1 pf.1 pf.2
  (r.1, if !r.2 then false else st.2)

/-- `validateForm(form)`: every required field is validated in turn, against the
document as the previous validations left it. -/
def validateForm (form : Form) : Form × Bool :=
  (requiredFields form 0).foldl validateStep (form, true)

/-! ## Table sorting -/

/-- The sort indicator (`<i>`) inside a header cell. -/
structure SortIcon where
  className : String
  opacity : String
  deriving DecidableEq

/-- A header cell (`th`): whether its class list holds `sort-asc` and
`sort-desc`, and its first `<i>` element if it has one. -/
structure Header where
  sortAsc : Bool
  sortDesc : Bool
  icon : Option SortIcon
  deriving DecidableEq

/-- A body row (`tr`): the text content of its cells. -/
abbrev Row := List String

/-- A data table: header cells and the rows of its body. -/
structure Table where
  headers : List Header
  rows : List Row
  deriving DecidableEq

/-- The comparator handed to `rows.sort` (lines 209 to 225).  `localeCompare`
is the collation of the host; `none` stands for the `TypeError` raised when a
row has no cell in the column. -/
def compareRows (localeCompare : List Char → List Char → Int) (columnIndex : Nat)
    (isAscending : Bool) (a b : Row) : Option Int :=
  match a.get? columnIndex, b.get? columnIndex with
  | some aCell, some bCell =>
    let aText := jsTrim aCell
    let bText := jsTrim bCell
    -- Try to parse as numbers
    let aNum := parseFloat aText
    let bNum := parseFloat bText
    let comparison :=
      if !aNum.isNaN && !bNum.isNaN then JSNumber.subSign aNum bNum
      else localeCompare aText bText
    some (if isAscending then comparison else -comparison)
  | _, _ => none

/-- Insert `x` in front of the first element it does not compare greater than. -/
def insertSorted {α : Type} (cmp : α → α → Option Int) (x : α) : List α → Option (List α)
  | [] => some [x]
  | y :: ys =>
    match cmp x y with
    | none => none
    | some v =>
      if v ≤ 0 then some (x :: y :: ys)
      else (insertSorted cmp x ys).map (y :: ·)

/-- `Array.prototype.sort(cmp)`: a stable sort, here by insertion from the
right.  The comparator is not called on fewer than two elements, and any of its
failures aborts the sort. -/
def arraySort {α : Type} (cmp : α → α → Option Int) : List α → Option (List α)
  | [] => some []
  | x :: xs =>
    match arraySort cmp xs with
    | none => none
    | some sorted => insertSorted cmp x sorted

/-- Reset of a sort indicator (lines 195 to 198). -/
def clearIcon (h : Header) : Header :=
  { h with icon := h.icon.map fun _ => { className := "fas fa-sort", opacity := "0.5" } }

/-- Lines 200 to 206 on the clicked header, and the class removal of line 205
on every other one. -/
def markHeaders (isAscending : Bool) : List Header → Nat → List Header
  | [], _ => []
  | h :: hs, 0 =>
    { sortAsc := isAscending, sortDesc := !isAscending,
      icon := h.icon.map fun _ =>
        { className := if isAscending then "fas fa-sort-up" else "fas fa-sort-down",
          opacity := "1" } } ::
      hs.map fun h' => { h' with sortAsc := false, sortDesc := false }
  | h :: hs, i + 1 =>
    { h with sortAsc := false, sortDesc := false } :: markHeaders isAscending hs i

/-- `sortTable(table, columnIndex)`.  The result is `none` when the call raises
a `TypeError`: no header cell at the index, no `<i>` in it, or a row without a
cell in the column when the comparator is called. -/
def sortTable (localeCompare : List Char → List Char → Int) (table : Table)
    (columnIndex : Nat) : Option Table :=
  match table.headers.get? columnIndex with
  | none => none
  | some header =>
    match header.icon with
    | none => none
    | some _ =>
      -- Determine sort direction
      let isAscending := !header.sortDesc
      let headers := markHeaders isAscending (table.headers.map clearIcon) columnIndex
      match arraySort (compareRows localeCompare columnIndex isAscending) table.rows with
      | none => none
      | some rows => some { headers := headers, rows := rows }

/-- A sample collation: comparison of the code points, position by position. -/
def codePointCompare : List Char → List Char → Int
  | [], [] => 0
  | [], _ :: _ => -1
  | _ :: _, [] => 1
  | a :: as, b :: bs =>
    if a.toNat < b.toNat then -1
    else if b.toNat < a.toNat then 1
    else codePointCompare as bs

/-! ## Tooltips -/

/-- An element that may carry tooltip text: its `title` and `data-title`
attributes (`none` when the attribute is absent). -/
structure Carrier where
  title : Option String
  dataTitle : Option String
  deriving DecidableEq

/-- The part of the document the tooltip handlers touch: the carriers and the
`.custom-tooltip` elements (by their text) in document order. -/
structure TooltipDoc where
  elements : List Carrier
  tooltips : List String
  deriving DecidableEq

/-- Replace the element with index `i`. -/
def setCarrier (els : List Carrier) (i : Nat) (c : Carrier) : List Carrier :=
  els.set i c

/-- `showTooltip(e)` with `e.target` the element of index `target`. -/
def showTooltip (doc : TooltipDoc) (target : Nat) : TooltipDoc :=
  match doc.elements.get? target with
  | none => doc
  | some element =>
    match element.title with
    | none => doc
    | some title =>
      if title.isEmpty then doc
      else
        -- Hide native tooltip, create custom tooltip
        { elements := setCarrier doc.elements target { title := none, dataTitle := some title },
          tooltips := doc.tooltips ++ [title] }

/-- `hideTooltip(e)` with `e.target` the element of index `target`. -/
def hideTooltip (doc : TooltipDoc) (target : Nat) : TooltipDoc :=
  match doc.elements.get? target with
  | none => doc
  | some element =>
    let elements :=
      match element.dataTitle with
      | none => doc.elements
      | some title =>
        if title.isEmpty then doc.elements
        else setCarrier doc.elements target { title := some title, dataTitle := none }
    -- `document.querySelector('.custom-tooltip')` is the first one
    { elements := elements, tooltips := doc.tooltips.tail }

/-- A pointer event on a tooltip carrier. -/
inductive PointerEvent where
  | enter (target : Nat) : PointerEvent
  | leave (target : Nat) : PointerEvent
  deriving DecidableEq

/-- The handler registered for the event. -/
def handlePointer (doc : TooltipDoc) : PointerEvent → TooltipDoc
  | .enter t => showTooltip doc t
  | .leave t => hideTooltip doc t

/-- The document after a sequence of pointer events. -/
def runPointerEvents (doc : TooltipDoc) (events : List PointerEvent) : TooltipDoc :=
  events.foldl handlePointer doc

/-! ## API client -/

/-- A decoded JSON body. -/
inductive Json where
  | null : Json
  | bool (b : Bool) : Json
  | number (n : JSNumber) : Json
  | string (s : String) : Json
  | array (items : List Json) : Json
  | object (members : List (String × Json)) : Json

/-- What `fetch` and `response.json()` can do: reject (network failure), or
deliver a response with its `ok` flag, its status, and its body, `none` when the
body does not decode. -/
inductive TransportOutcome where
  | networkFailure (reason : String) : TransportOutcome
  | response (ok : Bool) (status : Nat) (body : Option Json) : TransportOutcome

/-- The exceptions of the API client. -/
inductive ApiError where
  | network (reason : String) : ApiError
  | http (message : String) : ApiError
  | decode : ApiError
  deriving DecidableEq

/-- `apiRequest(url)`: the settled promise, `.error` for a rejection.  The
`catch` block logs and rethrows. -/
def apiRequest (fetch : String → TransportOutcome) (url : String) : Except ApiError Json :=
  match fetch url with
  | .networkFailure reason => .error (.network reason)
  | .response ok status body =>
    if !ok then .error (.http ("HTTP error! status: " ++ toString status))
    else
      match body with
      | none => .error .decode
      | some data => .ok data

/-- `lookupLand(landId)`: the settled promise, `.error` for a rejection.  The
`catch` block returns `{ success: false, message: 'Error looking up land details' }`. -/
def lookupLand (fetch : String → TransportOutcome) (landId : String) : Except ApiError Json :=
  match apiRequest fetch ("/api/land/" ++ landId) with
  | .ok data => .ok data
  | .error _ =>
    .ok (.object [("success", .bool false), ("message", .string "Error looking up land details")])

/-! ## Draft autosave -/

/-- An `option` of a `select`: its value, its selectedness and whether it is
disabled. -/
structure SelectOption where
  value : String
  selected : Bool
  disabled : Bool
  deriving DecidableEq

/-- The kind of an element that carries a `name` or belongs to a form, with the
state its `value` property reads and writes. -/
inductive ControlState where
  /-- An `input` of a text-like type (also hidden, number, email, ...) or a `textarea`. -/
  | text (value : String) : ControlState
  /-- An `input` of type checkbox or radio: its `value` attribute (`on` when absent)
  and its checkedness. -/
  | checkable (value : String) (checked : Bool) : ControlState
  /-- A `button`, or an `input` of type submit, reset, button or image. -/
  | button (value : String) : ControlState
  /-- A `select`, single or multiple, with its options in tree order. -/
  | select (options : List SelectOption) : ControlState
  /-- An `input` of type file; `path` is what its `value` reads. -/
  | file (path : String) : ControlState
  /-- Any other element with a `name` (`fieldset`, `output`, `object`, ...): it
  is never submitted. -/
  | unlisted (value : String) : ControlState
  deriving DecidableEq

/-- An element of the document as `new FormData(form)` and
`form.querySelector('[name=...]')` see it.  A `name` or `dirname` of `""`
stands for an absent or empty attribute.  `owned` says that the form is the
form owner of the element (it is submitted with the form, also when it lies
outside and refers to the form by its `form` attribute); `inside` says that it
is a descendant of the form element.  `disabled` covers every reason for which
the element is barred from submission as a whole: its own `disabled` attribute,
a disabled `fieldset` around it, a `datalist` ancestor. -/
structure Control where
  name : String
  owned : Bool
  inside : Bool
  disabled : Bool
  hidden : Bool
  dirname : String
  rtl : Bool
  state : ControlState
  deriving DecidableEq

/-- The elements of interest of the document, in tree order. -/
abbrev Controls := List Control

/-- The value of a form-data entry: a string, or a `File` object. -/
inductive EntryValue where
  | text (s : String) : EntryValue
  | file : EntryValue
  deriving DecidableEq

/-- The entries one element contributes to `new FormData(form)` (the HTML
algorithm "constructing the entry list" without a submitter): nothing for an
element that is not owned by the form, disabled, a button, an unchecked
checkbox or radio button, or without a name; one entry per selected option
that is not disabled for a `select`; a `File` for a file input; `UTF-8` for a
hidden field named `_charset_`; and after the value of a text control its
direction, under the key given by `dirname`. -/
def Control.entries (c : Control) : List (String × EntryValue) :=
  if !c.owned || c.disabled || c.name = "" then []
  else
    match c.state with
    | .button _ => []
    | .unlisted _ => []
    | .checkable v checked => if checked then [(c.name, .text v)] else []
    | .select options =>
      (options.filter fun o => o.selected && !o.disabled).map fun o => (c.name, .text o.value)
    | .file _ => [(c.name, .file)]
    | .text v =>
      (c.name, .text (if c.hidden && c.name.toLower = "_charset_" then "UTF-8" else v)) ::
        (if c.dirname = "" then [] else [(c.dirname, .text (if c.rtl then "rtl" else "ltr"))])

/-- The entry list of `new FormData(form)`. -/
def formDataEntries (controls : Controls) : List (String × EntryValue) :=
  controls.flatMap Control.entries

/-- The `value` property of an element as a script reads it; for a `select`
the value of its first selected option, `""` without one. -/
def Control.currentValue (c : Control) : String :=
  match c.state with
  | .text v => v
  | .checkable v _ => v
  | .button v => v
  | .select options =>
    match options.find? (·.selected) with
    | some o => o.value
    | none => ""
  | .file path => path
  | .unlisted v => v

/-- The options after `select.value = v`: the first option with that value is
selected, every other one is not. -/
def selectFirst (v : String) : List SelectOption → List SelectOption
  | [] => []
  | o :: os =>
    if o.value = v then { o with selected := true } :: os.map fun o' => { o' with selected := false }
    else { o with selected := false } :: selectFirst v os

/-- The assignment `element.value = v`; `none` stands for the
`InvalidStateError` a file input raises for a non-empty string.  (The
type-specific sanitization of a text control is the identity on every value the
same control has reported, and is left out.) -/
def Control.setValue (c : Control) (v : String) : Option Control :=
  match c.state with
  | .text _ => some { c with state := .text v }
  | .checkable _ checked => some { c with state := .checkable v checked }
  | .button _ => some { c with state := .button v }
  | .select options => some { c with state := .select (selectFirst v options) }
  | .file _ => if v = "" then some { c with state := .file "" } else none
  | .unlisted _ => some { c with state := .unlisted v }

/-- An ordinary object whose values are form-data entry values: its own
properties in creation order. -/
abbrev JSObject := List (String × EntryValue)

/-- The assignment `data[key] = value` on an ordinary object.  The key
`__proto__` reaches the accessor of `Object.prototype`, which ignores a string
and would take a `File` as the new prototype: no own property is created
either way.  An existing property keeps its place. -/
def JSObject.set (data : JSObject) (key : String) (value : EntryValue) : JSObject :=
  if key = "__proto__" then data
  else if data.any (fun e => e.1 = key) then
    data.map fun e => if e.1 = key then (key, value) else e
  else data ++ [(key, value)]

/-- If the key is an array index (the canonical decimal form of a number below
`2^32 - 1`), that number. -/
def arrayIndex (key : String) : Option Nat :=
  let cs := key.toList
  if cs ≠ [] ∧ cs.all isDigit ∧ (cs = ['0'] ∨ cs.head? ≠ some '0') ∧
      digitsValue cs < 2 ^ 32 - 1 then
    some (digitsValue cs)
  else none

/-- The own properties in the order `Object.keys` and `JSON.stringify`
enumerate them: array indices first, ascending, then the other keys in creation
order. -/
def ownEntries (data : JSObject) : List (String × EntryValue) :=
  ((data.filterMap fun e => (arrayIndex e.1).map fun n => (n, e)).insertionSort
      (fun a b => a.1 ≤ b.1)).map (·.2) ++
    data.filter fun e => (arrayIndex e.1).isNone

/-- What `input.value = data[key]` receives for a value that went through
`JSON.stringify` and `JSON.parse`: the string itself, and for a `File`, which
is written as `{}`, the text of an empty object. -/
def valueAsRead : EntryValue → String
  | .text s => s
  | .file => "[object Object]"

/-- The local storage area: keys with their values. -/
abbrev Storage := List (String × String)

/-- `localStorage.getItem(key)`. -/
def getItem (store : Storage) (key : String) : Option String :=
  (store.find? fun e => e.1 = key).map (·.2)

/-- `localStorage.setItem(key, value)`. -/
def setItem (store : Storage) (key value : String) : Storage :=
  if store.any (fun e => e.1 = key) then
    store.map fun e => if e.1 = key then (key, value) else e
  else store ++ [(key, value)]

/-- `saveFormData(form, formId)`; `jsonStringify` is `JSON.stringify` on the
object built from the entries. -/
def saveFormData (jsonStringify : JSObject → String) (controls : Controls) (formId : String)
    (store : Storage) : Storage :=
  let data := (formDataEntries controls).foldl (fun (d : JSObject) e => d.set e.1 e.2) []
  setItem store ("form_" ++ formId) (jsonStringify data)

/-- Keys for which the selector text `[name="key"]` is the attribute selector
for exactly that name: no quote, backslash, line break or NUL in the key, and
the key is not empty. -/
def selectorSafe (key : String) : Bool :=
  key ≠ "" && key.toList.all fun c =>
    c != '"' && c != '\\' && c != '\n' && c != '\r' && c.toNat != 0x0C && c.toNat != 0

/-- `form.querySelector('[name="' + key + '"]')`: the index of the first
element inside the form with that name.  For the other keys the selector text
is read by the CSS parser of the host, `cssQuery`, which may also reject it
(`.error`). -/
def querySelectorName (cssQuery : String → Controls → Except Unit (Option Nat))
    (controls : Controls) (key : String) : Except Unit (Option Nat) :=
  if selectorSafe key then
    .ok (if controls.any (fun c => c.inside && c.name = key) then
           some (controls.findIdx fun c => c.inside && c.name = key) else none)
  else cssQuery key controls

/-- The assignment `input.value = value` on the element with index `i`; `none`
when it raises. -/
def setValueAt : Controls → Nat → String → Option Controls
  | [], _, _ => some []
  | c :: cs, 0, value => (c.setValue value).map (· :: cs)
  | c :: cs, i + 1, value => (setValueAt cs i value).map (c :: ·)

/-- The loop of `loadFormData` over the keys (lines 523 to 528); an exception
ends it, keeping what has been written. -/
def loadEntries (cssQuery : String → Controls → Except Unit (Option Nat)) :
    Controls → List (String × String) → Controls
  | controls, [] => controls
  | controls, (key, value) :: rest =>
    match querySelectorName cssQuery controls key with
    | .error _ => controls
    | .ok none => loadEntries cssQuery controls rest
    | .ok (some i) =>
      match setValueAt controls i value with
      | none => controls
      | some controls' => loadEntries cssQuery controls' rest

/-- `loadFormData(form, formId)`; `jsonParse` gives the keys of
`JSON.parse(text)` in `Object.keys` order, each with its value as the
assignment to `input.value` reads it, and `none` when an exception is raised
inside the `try` block (malformed text, or `null`). -/
def loadFormData (cssQuery : String → Controls → Except Unit (Option Nat))
    (jsonParse : String → Option (List (String × String))) (controls : Controls)
    (formId : String) (store : Storage) : Controls :=
  match getItem store ("form_" ++ formId) with
  | none => controls
  | some savedData =>
    if savedData = "" then controls
    else
      match jsonParse savedData with
      | none => controls
      | some data => loadEntries cssQuery controls data

/-- A CSS parser that rejects every selector text it is asked about. -/
def cssRejects : String → Controls → Except Unit (Option Nat) :=
  fun _ _ => .error ()

/-! ### A sample codec

A writer and a reader for objects with string values, in the JSON format with
the two escapes `\\"` and `\\\\`.  A `File` is written as `{}`, which the reader
does not take. -/

/-- Escape one character. -/
def escapeChar (c : Char) : List Char :=
  if c = '"' then ['\\', '"'] else if c = '\\' then ['\\', '\\'] else [c]

/-- A string literal. -/
def quoteString (s : String) : List Char :=
  '"' :: (s.toList.flatMap escapeChar ++ ['"'])

/-- The written form of a value. -/
def renderValue : EntryValue → List Char
  | .text s => quoteString s
  | .file => ['{', '}']

/-- The members after the opening brace, up to and including the closing one. -/
def renderMembers : List (String × EntryValue) → List Char
  | [] => ['}']
  | [e] => quoteString e.1 ++ ':' :: renderValue e.2 ++ ['}']
  | e :: e' :: es => quoteString e.1 ++ ':' :: renderValue e.2 ++ ',' :: renderMembers (e' :: es)

/-- Writer of the sample codec. -/
def sampleStringify (data : JSObject) : String :=
  String.mk ('{' :: renderMembers (ownEntries data))

/-- Read a string literal after its opening quote: the text and the unread rest. -/
def readString : List Char → Option (List Char × List Char)
  | [] => none
  | c :: rest =>
    if c = '"' then some ([], rest)
    else if c = '\\' then
      match rest with
      | [] => none
      | d :: rest' => (readString rest').map fun r => (d :: r.1, r.2)
    else (readString rest).map fun r => (c :: r.1, r.2)

/-- Read the members of a non-empty object, at most `fuel` of them. -/
def readMembers : Nat → List Char → Option (List (String × String))
  | 0, _ => none
  | fuel + 1, cs =>
    match cs with
    | '"' :: r0 =>
      match readString r0 with
      | some (k, ':' :: '"' :: r1) =>
        match readString r1 with
        | some (v, ['}']) => some [(String.mk k, String.mk v)]
        | some (v, ',' :: r2) => (readMembers fuel r2).map ((String.mk k, String.mk v) :: ·)
        | _ => none
      | _ => none
    | _ => none

/-- Reader of the sample codec. -/
def sampleParse (text : String) : Option (List (String × String)) :=
  match text.toList with
  | ['{', '}'] => some []
  | '{' :: rest => readMembers rest.length rest
  | _ => none

/-! ## The specification's wording, for comparison with the script -/

/-- The shape `local@domain.tld` in the words of the specification: a non-empty
local part, one `@`, a domain with a `.` that has text on both sides, and no
white space or further `@` anywhere. -/
def emailShape (v : List Char) : Prop :=
  ∃ loc dom : List Char, v = loc ++ '@' :: dom ∧ loc ≠ [] ∧
    (∃ x y : List Char, dom = x ++ '.' :: y ∧ x ≠ [] ∧ y ≠ []) ∧
    ∀ c ∈ loc ++ dom, isJSWhitespace c = false ∧ c ≠ '@'

/-- The messages of the rules a field fails, in the order of the rule list of
the specification: required, email, number, land ID. -/
def failedRuleMessages (field : Field) : List String :=
  let value := jsTrim field.value
  (if field.required && value.isEmpty then ["This field is required"] else []) ++
  (if field.type = "email" && !value.isEmpty && !(regexTest emailRegex value) then
    ["Please enter a valid email address"] else []) ++
  (if field.type = "number" && !value.isEmpty &&
      ((toNumber value).isNaN || (parseFloat value).ltZero) then
    ["Please enter a valid positive number"] else []) ++
  (if field.name = "land_id" && !value.isEmpty && decide (utf16Length value < 3) then
    ["Land ID must be at least 3 characters long"] else [])

/-- The inline error messages among the children of a parent element. -/
def errorsOf (c : Container) : List String :=
  c.filterMap fun n => match n with
    | .fieldError text => some text
    | _ => none

/-- The messages of the required controls of a parent element that fail validation. -/
def invalidMessages (c : Container) : List String :=
  (requiredIn c).filterMap fun f =>
    if (validateFieldRules f).1 then none else some (validateFieldRules f).2

/-- What `validateField` does to the parent element of a required control. -/
def settle (c : Container) : Container :=
  match requiredIn c with
  | [f] =>
    if (validateFieldRules f).1 then removeFirstError c
    else removeFirstError c ++ [Node.fieldError (validateFieldRules f).2]
  | _ => c

/-- The required controls of a parent element all pass validation. -/
def allValid (c : Container) : Bool :=
  (requiredIn c).all fun f => (validateFieldRules f).1

/-- Is the event a pointer-enter? -/
def PointerEvent.isEnter : PointerEvent → Bool
  | .enter _ => true
  | .leave _ => false

/-- The element the event is dispatched to. -/
def PointerEvent.target : PointerEvent → Nat
  | .enter t => t
  | .leave t => t

/-- No two pointer-enter events follow each other without a pointer-leave
between them. -/
def enterLeaveAlternate (events : List PointerEvent) : Prop :=
  events.Chain' fun a b => ¬ (a.isEnter = true ∧ b.isEnter = true)

/-- The trimmed text of the cell of a row in a column (`""` without such a cell). -/
def cellText (columnIndex : Nat) (row : Row) : List Char :=
  jsTrim ((row.get? columnIndex).getD "")

/-- Does the cell of the row in the column parse as a number? -/
def cellIsNumber (columnIndex : Nat) (row : Row) : Bool :=
  !(parseFloat (cellText columnIndex row)).isNaN

/-- The comparison policy of the specification as an order on rows: numeric
order when both cells parse as numbers, the order of the collation otherwise. -/
def policyLe (localeCompare : List Char → List Char → Int) (columnIndex : Nat)
    (a b : Row) : Prop :=
  if cellIsNumber columnIndex a = true ∧ cellIsNumber columnIndex b = true then
    JSNumber.le (parseFloat (cellText columnIndex a)) (parseFloat (cellText columnIndex b)) = true
  else localeCompare (cellText columnIndex a) (cellText columnIndex b) ≤ 0

/-- A consistent comparator in the sense of ECMAScript: exchanging the
arguments exchanges the sign, and `≤ 0` is transitive. -/
def ConsistentComparator (cmp : List Char → List Char → Int) : Prop :=
  (∀ a b, cmp a b < 0 ↔ 0 < cmp b a) ∧ (∀ a b c, cmp a b ≤ 0 → cmp b c ≤ 0 → cmp a c ≤ 0)

/-- A header cell as `initializeDataTables` leaves it: no sort class, and the
indicator `fas fa-sort` at half opacity. -/
def freshHeader : Header :=
  { sortAsc := false, sortDesc := false, icon := some { className := "fas fa-sort", opacity := "0.5" } }

/-- The value of the last entry under the key, if there is one. -/
def lastValue {α : Type} : List (String × α) → String → Option α
  | [], _ => none
  | e :: es, k =>
    match lastValue es k with
    | some v => some v
    | none => if e.1 = k then some e.2 else none

/-- The value the draft holds for an element after `saveFormData`: the last
entry it contributes under its name, as `input.value = ...` will read it. -/
def Control.savedValue (c : Control) : Option String :=
  (lastValue c.entries c.name).map valueAsRead

/-- An element without the state a user changes: the text of a text control,
the checkedness of a check box, the selectedness of options, the chosen files.
Two copies of the same form differ in nothing else. -/
def blank (c : Control) : Control :=
  { c with state :=
      match c.state with
      | .text _ => .text ""
      | .checkable v _ => .checkable v false
      | .button v => .button v
      | .select options => .select (options.map fun o => { o with selected := false })
      | .file _ => .file ""
      | .unlisted v => .unlisted v }

/-- The names and `dirname` keys of the elements, in tree order. -/
def formKeys (controls : Controls) : List String :=
  controls.flatMap fun c =>
    (if c.name = "" then [] else [c.name]) ++ (if c.dirname = "" then [] else [c.dirname])

/-- The effect of loading the entries on one element: the value stored under
its name, if there is one and the element lies inside the form. -/
def applyEntries (entries : List (String × String)) (c : Control) : Control :=
  match entries.lookup c.name with
  | some v => if c.inside then (c.setValue v).getD c else c
  | none => c

/-- A plain text input inside its form, with a name and a value. -/
def textInput (name value : String) : Control :=
  { name := name, owned := true, inside := true, disabled := false, hidden := false,
    dirname := "", rtl := false, state := .text value }


/-! ## Lemmas on strings and the regular expression -/

theorem trimEnd_nil_of_all {s : List Char} (h : ∀ c ∈ s, isJSWhitespace c = true) :
    trimEnd s = [] := by
  induction s with
  | nil => rfl
  | cons c cs ih =>
    have h1 : trimEnd cs = [] := ih fun d hd => h d (List.mem_cons_of_mem _ hd)
    have h2 : isJSWhitespace c = true := h c (List.mem_cons_self _ _)
    simp [trimEnd, h1, h2]

theorem jsTrim_nil_of_all {s : String} (h : ∀ c ∈ s.toList, isJSWhitespace c = true) :
    jsTrim s = [] := by
  unfold jsTrim
  apply trimEnd_nil_of_all
  intro c hc
  exact h c ((List.dropWhile_sublist _).subset hc)

theorem regexTest_nil (s : List Char) : regexTest [] s = true ↔ s = [] := by
  cases s <;> simp [regexTest]

theorem regexTest_one (p : Char → Bool) (rs : List RegexItem) (s : List Char) :
    regexTest (.one p :: rs) s = true ↔
      ∃ c b, s = c :: b ∧ p c = true ∧ regexTest rs b = true := by
  cases s with
  | nil => simp [regexTest]
  | cons c b =>
    simp only [regexTest, Bool.and_eq_true, List.cons.injEq]
    constructor
    · rintro ⟨h1, h2⟩
      exact ⟨c, b, ⟨rfl, rfl⟩, h1, h2⟩
    · rintro ⟨c', b', ⟨rfl, rfl⟩, h1, h2⟩
      exact ⟨h1, h2⟩

theorem regexTest_plus (p : Char → Bool) (rs : List RegexItem) (s : List Char) :
    regexTest (.plus p :: rs) s = true ↔
      ∃ a b, s = a ++ b ∧ a ≠ [] ∧ (∀ c ∈ a, p c = true) ∧ regexTest rs b = true := by
  induction s with
  | nil =>
    simp only [regexTest, Bool.false_eq_true, false_iff]
    rintro ⟨a, b, hab, ha, -, -⟩
    cases a with
    | nil => exact ha rfl
    | cons x xs => simp at hab
  | cons c s ih =>
    simp only [regexTest, Bool.and_eq_true, Bool.or_eq_true]
    constructor
    · rintro ⟨hc, h | h⟩
      · exact ⟨[c], s, rfl, by simp, by simpa using hc, h⟩
      · obtain ⟨a, b, hab, -, hall, hb⟩ := ih.mp h
        refine ⟨c :: a, b, by simp [hab], by simp, ?_, hb⟩
        intro d hd
        rcases List.mem_cons.mp hd with rfl | hd
        · exact hc
        · exact hall d hd
    · rintro ⟨a, b, hab, ha, hall, hb⟩
      cases a with
      | nil => exact absurd rfl ha
      | cons x xs =>
        simp only [List.cons_append, List.cons.injEq] at hab
        obtain ⟨rfl, rfl⟩ := hab
        refine ⟨hall _ (List.mem_cons_self _ _), ?_⟩
        by_cases hxs : xs = []
        · subst hxs; left; simpa using hb
        · right
          exact ih.mpr ⟨xs, b, rfl, hxs, fun d hd => hall d (List.mem_cons_of_mem _ hd), hb⟩

theorem notSpaceOrAt_iff (c : Char) :
    notSpaceOrAt c = true ↔ isJSWhitespace c = false ∧ c ≠ '@' := by
  simp [notSpaceOrAt]

theorem regexTest_emailRegex (v : List Char) :
    regexTest emailRegex v = true ↔ emailShape v := by
  unfold emailRegex emailShape
  simp only [regexTest_plus, regexTest_one, regexTest_nil, beq_iff_eq, notSpaceOrAt_iff]
  constructor
  · rintro ⟨a, b, rfl, ha, halla, c, b', rfl, rfl, x, r, rfl, hx, hallx, d, r', rfl, rfl,
      y, z, rfl, hy, hally, rfl⟩
    refine ⟨a, x ++ '.' :: y, by simp, ha, ⟨x, y, by simp, hx, hy⟩, ?_⟩
    intro e he
    simp only [List.mem_append, List.mem_cons] at he
    rcases he with he | he | rfl | he
    · exact halla e he
    · exact hallx e he
    · exact ⟨by decide, by decide⟩
    · exact hally e he
  · rintro ⟨loc, dom, rfl, hloc, ⟨x, y, rfl, hx, hy⟩, hall⟩
    refine ⟨loc, _, rfl, hloc, fun c hc => hall c (by simp [hc]), '@', _, rfl, rfl,
      x, _, rfl, hx, fun c hc => hall c (by simp [hc]), '.', _, rfl, rfl,
      y, [], by simp, hy, fun c hc => hall c (by simp [hc]), rfl⟩

/-! ## Field validation -/

theorem validateField_snd (form : Form) (parent : Nat) (field : Field) :
    (validateField form parent field).2 = (validateFieldRules field).1 := by
  unfold validateField
  dsimp only
  split <;> rfl

/-- C3: a required field whose value is empty or all white space is invalid,
whatever its type and name. -/
theorem validateField_required_blank (form : Form) (parent : Nat) (field : Field)
    (hreq : field.required = true)
    (hblank : ∀ c ∈ field.value.toList, isJSWhitespace c = true) :
    (validateField form parent field).2 = false := by
  rw [validateField_snd]
  have hv : jsTrim field.value = [] := jsTrim_nil_of_all hblank
  simp [validateFieldRules, hv, hreq]

theorem validateField_required_blank_witness :
    (validateField [[Node.field ⟨"land_id", " \t ", "email", true⟩]] 0
      ⟨"land_id", " \t ", "email", true⟩).2 = false :=
  validateField_required_blank _ 0 ⟨"land_id", " \t ", "email", true⟩ rfl (by decide)

set_option exponentiation.threshold 5000 in
theorem number_minus_one : (parseFloat (jsTrim "-1")).ltZero = true := by decide

set_option exponentiation.threshold 5000 in
theorem number_zero :
    ¬ ((toNumber (jsTrim "0")).isNaN = true ∨ (parseFloat (jsTrim "0")).ltZero = true) := by
  decide

set_option exponentiation.threshold 5000 in
theorem number_three_and_a_half :
    ¬ ((toNumber (jsTrim "3.5")).isNaN = true ∨ (parseFloat (jsTrim "3.5")).ltZero = true) := by
  decide

/-- C4: a number field (not named `land_id`) with a non-empty trimmed value is
invalid exactly when the value is not a number (`isNaN(value)`) or its parsed
value is below zero; `-1` is invalid, `0` and `3.5` are valid. -/
theorem validateField_number :
    (∀ (form : Form) (parent : Nat) (field : Field),
      field.type = "number" → field.name ≠ "land_id" → jsTrim field.value ≠ [] →
      ((validateField form parent field).2 = false ↔
        ((toNumber (jsTrim field.value)).isNaN = true ∨
          (parseFloat (jsTrim field.value)).ltZero = true))) ∧
    (∀ (form : Form) (parent : Nat) (name : String) (required : Bool), name ≠ "land_id" →
      (validateField form parent ⟨name, "-1", "number", required⟩).2 = false ∧
      (validateField form parent ⟨name, "0", "number", required⟩).2 = true ∧
      (validateField form parent ⟨name, "3.5", "number", required⟩).2 = true) := by
  have key : ∀ (form : Form) (parent : Nat) (field : Field),
      field.type = "number" → field.name ≠ "land_id" → jsTrim field.value ≠ [] →
      ((validateField form parent field).2 = false ↔
        ((toNumber (jsTrim field.value)).isNaN = true ∨
          (parseFloat (jsTrim field.value)).ltZero = true)) := by
    intro form parent field htype hname hval
    rw [validateField_snd]
    have hne : (jsTrim field.value).isEmpty = false := by
      cases h : jsTrim field.value with
      | nil => exact absurd h hval
      | cons _ _ => rfl
    have hemail : ¬ (field.type = "email") := by rw [htype]; decide
    simp only [validateFieldRules, hne, htype, hname, hemail]
    by_cases h : ((toNumber (jsTrim field.value)).isNaN || (parseFloat (jsTrim field.value)).ltZero) = true
    · simp only [Bool.or_eq_true] at h
      simp [h]
    · have h' := h
      simp only [Bool.or_eq_true, not_or] at h'
      simp [h, h'.1, h'.2]
  refine ⟨key, ?_⟩
  intro form parent name required hname
  refine ⟨?_, ?_, ?_⟩
  · exact (key form parent ⟨name, "-1", "number", required⟩ rfl hname
      (by show jsTrim "-1" ≠ []; decide)).mpr (Or.inr number_minus_one)
  · have := (key form parent ⟨name, "0", "number", required⟩ rfl hname
      (by show jsTrim "0" ≠ []; decide)).not
    simp only [Bool.not_eq_false] at this
    exact this.mpr number_zero
  · have := (key form parent ⟨name, "3.5", "number", required⟩ rfl hname
      (by show jsTrim "3.5" ≠ []; decide)).not
    simp only [Bool.not_eq_false] at this
    exact this.mpr number_three_and_a_half

theorem validateField_number_witness :
    (validateField [] 0 ⟨"area", "12abc", "number", true⟩).2 = false :=
  (validateField_number.1 [] 0 ⟨"area", "12abc", "number", true⟩ rfl (by decide)
    (by decide)).mpr (Or.inl (by decide))

/-- C5: an email field (not named `land_id`) with a non-empty trimmed value is
valid exactly when the value has the shape `local@domain.tld`; `a@b` is invalid
and `a@b.com` is valid. -/
theorem validateField_email :
    (∀ (form : Form) (parent : Nat) (field : Field),
      field.type = "email" → field.name ≠ "land_id" → jsTrim field.value ≠ [] →
      ((validateField form parent field).2 = true ↔ emailShape (jsTrim field.value))) ∧
    (∀ (form : Form) (parent : Nat) (name : String) (required : Bool), name ≠ "land_id" →
      (validateField form parent ⟨name, "a@b", "email", required⟩).2 = false ∧
      (validateField form parent ⟨name, "a@b.com", "email", required⟩).2 = true) := by
  have key : ∀ (form : Form) (parent : Nat) (field : Field),
      field.type = "email" → field.name ≠ "land_id" → jsTrim field.value ≠ [] →
      ((validateField form parent field).2 = true ↔
        regexTest emailRegex (jsTrim field.value) = true) := by
    intro form parent field htype hname hval
    rw [validateField_snd]
    have hne : (jsTrim field.value).isEmpty = false := by
      cases h : jsTrim field.value with
      | nil => exact absurd h hval
      | cons _ _ => rfl
    have hnum : ¬ (field.type = "number") := by rw [htype]; decide
    simp only [validateFieldRules, hne, htype, hname, hnum]
    cases h : regexTest emailRegex (jsTrim field.value) <;> simp
  refine ⟨fun form parent field h1 h2 h3 =>
    (key form parent field h1 h2 h3).trans (regexTest_emailRegex _), ?_⟩
  intro form parent name required hname
  constructor
  · have := (key form parent ⟨name, "a@b", "email", required⟩ rfl hname
      (by show jsTrim "a@b" ≠ []; decide)).not
    simp only [Bool.not_eq_true] at this
    exact this.mpr (by show regexTest emailRegex (jsTrim "a@b") = false; decide)
  · exact (key form parent ⟨name, "a@b.com", "email", required⟩ rfl hname
      (by show jsTrim "a@b.com" ≠ []; decide)).mpr
      (by show regexTest emailRegex (jsTrim "a@b.com") = true; decide)

theorem validateField_email_witness :
    (validateField [] 0 ⟨"contact", " owner@land.example ", "email", false⟩).2 = true ↔
      emailShape (jsTrim " owner@land.example ") :=
  validateField_email.1 [] 0 ⟨"contact", " owner@land.example ", "email", false⟩ rfl
    (by decide) (by decide)

/-! ### The message shown -/

theorem getLast?_append_singleton {α : Type} (l : List α) (a : α) :
    (l ++ [a]).getLast? = some a := by
  simp

theorem get?_modifyContainer (f : Container → Container) (form : Form) (i : Nat) :
    (modifyContainer f form i)[i]? = form[i]?.map f := by
  induction form generalizing i with
  | nil => simp [modifyContainer]
  | cons c cs ih =>
    cases i with
    | zero => simp [modifyContainer]
    | succ i => simpa [modifyContainer] using ih i

/-- The message `validateField` ends up with is the one of the last rule that fails. -/
theorem validateFieldRules_eq (field : Field) :
    validateFieldRules field =
      ((failedRuleMessages field).isEmpty, (failedRuleMessages field).getLast?.getD "") := by
  unfold validateFieldRules failedRuleMessages
  by_cases h8 : utf16Length (jsTrim field.value) < 3 <;>
  cases h1 : (field.required && (jsTrim field.value).isEmpty) <;>
  cases h2 : decide (field.type = "email") <;>
  cases h3 : decide (field.type = "number") <;>
  cases h4 : decide (field.name = "land_id") <;>
  cases h5 : (jsTrim field.value).isEmpty <;>
  cases h6 : regexTest emailRegex (jsTrim field.value) <;>
  cases h7 : ((toNumber (jsTrim field.value)).isNaN || (parseFloat (jsTrim field.value)).ltZero) <;>
  simp_all <;>
  simp [Nat.not_lt.mpr h8]

/-- C6 (amended): when `validateField` finds a field invalid, the inline error
message it appends to the parent element is the message of the last rule the
field fails, in the order required, email, number, land ID. -/
theorem validateField_message_last (form : Form) (parent : Nat) (field : Field)
    (hparent : parent < form.length)
    (hinvalid : (validateField form parent field).2 = false) :
    ∃ message, (failedRuleMessages field).getLast? = some message ∧
      (validateField form parent field).1[parent]?.bind List.getLast? =
        some (Node.fieldError message) := by
  rw [validateField_snd] at hinvalid
  have hrules := validateFieldRules_eq field
  rw [hrules] at hinvalid
  simp only [List.isEmpty_eq_false] at hinvalid
  obtain ⟨message, hmsg⟩ : ∃ m, (failedRuleMessages field).getLast? = some m := by
    cases h : (failedRuleMessages field).getLast? with
    | none => exact absurd (List.getLast?_eq_none_iff.mp h) hinvalid
    | some m => exact ⟨m, rfl⟩
  refine ⟨message, hmsg, ?_⟩
  have hc : form[parent]? = some form[parent] := List.getElem?_eq_getElem hparent
  have h1 : (validateFieldRules field).1 = false := by
    rw [hrules]; simpa using hinvalid
  have h2 : (validateFieldRules field).2 = message := by
    rw [hrules]; simp [hmsg]
  simp only [validateField, h1, h2, showFieldError, clearFieldError]
  simp only [Bool.not_false, if_true]
  rw [get?_modifyContainer, get?_modifyContainer, hc]
  simp

theorem validateField_message_last_witness :
    ∃ message,
      (failedRuleMessages ⟨"land_id", "ab", "email", true⟩).getLast? = some message ∧
      (validateField [[Node.field ⟨"land_id", "ab", "email", true⟩]] 0
          ⟨"land_id", "ab", "email", true⟩).1[0]?.bind List.getLast? =
        some (Node.fieldError message) :=
  validateField_message_last [[Node.field ⟨"land_id", "ab", "email", true⟩]] 0
    ⟨"land_id", "ab", "email", true⟩ (by decide) (by decide)

/-- C6 as stated fails: for an email field named `land_id` with value `ab` the
first rule that fails is the email rule, but the message attached to the field
is the one of the land ID rule. -/
theorem validateField_message_not_first :
    (failedRuleMessages ⟨"land_id", "ab", "email", false⟩).head? =
        some "Please enter a valid email address" ∧
    (validateField [[Node.field ⟨"land_id", "ab", "email", false⟩]] 0
        ⟨"land_id", "ab", "email", false⟩) =
      ([[Node.field ⟨"land_id", "ab", "email", false⟩,
         Node.fieldError "Land ID must be at least 3 characters long"]], false) := by
  decide

/-! ## Form validation as a whole -/

theorem modifyContainer_append (f : Container → Container) (done : Form) (c : Container)
    (cs : Form) : modifyContainer f (done ++ c :: cs) done.length = done ++ f c :: cs := by
  induction done with
  | nil => simp [modifyContainer]
  | cons d ds ih => simp [modifyContainer, ih]

theorem validateField_append (done : Form) (c : Container) (cs : Form) (f : Field) :
    (validateField (done ++ c :: cs) done.length f).1 =
      done ++ (if (validateFieldRules f).1 then removeFirstError c
               else removeFirstError c ++ [Node.fieldError (validateFieldRules f).2]) :: cs := by
  unfold validateField
  dsimp only
  cases h : (validateFieldRules f).1
  · simp only [Bool.not_false, if_true, showFieldError, clearFieldError, modifyContainer_append]
    simp
  · simp only [Bool.not_true, Bool.false_eq_true, if_false, clearFieldError,
      modifyContainer_append, if_true]

theorem validateStep_append (done : Form) (c : Container) (cs : Form) (acc : Bool) (f : Field) :
    validateStep (done ++ c :: cs, acc) (done.length, f) =
      (done ++ (if (validateFieldRules f).1 then removeFirstError c
                else removeFirstError c ++ [Node.fieldError (validateFieldRules f).2]) :: cs,
        (validateFieldRules f).1 && acc) := by
  unfold validateStep
  dsimp only
  rw [validateField_append, validateField_snd]
  cases (validateFieldRules f).1 <;> simp

theorem validateForm_fold (todo : Form) :
    ∀ (done : Form) (acc : Bool), (∀ c ∈ todo, (requiredIn c).length ≤ 1) →
      (requiredFields todo done.length).foldl validateStep (done ++ todo, acc) =
        (done ++ todo.map settle, acc && todo.all allValid) := by
  induction todo with
  | nil => intro done acc _; simp [requiredFields]
  | cons c cs ih =>
    intro done acc hown
    have hc : (requiredIn c).length ≤ 1 := hown c (List.mem_cons_self _ _)
    have hcs : ∀ c' ∈ cs, (requiredIn c').length ≤ 1 :=
      fun c' h => hown c' (List.mem_cons_of_mem _ h)
    have hlen : ∀ x : Container, (done ++ [x]).length = done.length + 1 := by simp
    match hreq : requiredIn c, hc with
    | [], _ =>
      have hs : settle c = c := by simp [settle, hreq]
      have := ih (done ++ [c]) acc hcs
      rw [hlen] at this
      simp only [List.append_assoc, List.singleton_append] at this
      simp [requiredFields, hreq, this, hs, allValid]
    | [f], _ =>
      have := ih (done ++ [settle c]) ((validateFieldRules f).1 && acc) hcs
      rw [hlen] at this
      simp only [List.append_assoc, List.singleton_append] at this
      have hs : settle c = (if (validateFieldRules f).1 then removeFirstError c
               else removeFirstError c ++ [Node.fieldError (validateFieldRules f).2]) := by
        simp [settle, hreq]
      simp only [requiredFields, hreq, List.map_cons, List.map_nil, List.singleton_append,
        List.foldl_cons, validateStep_append]
      rw [← hs, this]
      cases hv : (validateFieldRules f).1 <;> simp [allValid, hreq, hv]
    | _ :: _ :: _, h => simp at h

theorem errorsOf_removeFirstError (c : Container) :
    errorsOf (removeFirstError c) = (errorsOf c).tail := by
  induction c with
  | nil => rfl
  | cons n ns ih =>
    cases n with
    | field f => simp [removeFirstError, Node.isError, errorsOf] at ih ⊢; exact ih
    | fieldError t => simp [removeFirstError, Node.isError, errorsOf]
    | other => simp [removeFirstError, Node.isError, errorsOf] at ih ⊢; exact ih

theorem errorsOf_append (a b : Container) : errorsOf (a ++ b) = errorsOf a ++ errorsOf b := by
  simp [errorsOf]

theorem errorsOf_settle (c : Container) (hown : (requiredIn c).length ≤ 1)
    (herr : (errorsOf c).length ≤ (requiredIn c).length) :
    errorsOf (settle c) = invalidMessages c := by
  have htail : (errorsOf c).tail = [] := by
    cases h : errorsOf c with
    | nil => rfl
    | cons a t =>
      cases t with
      | nil => rfl
      | cons b t' => rw [h] at herr; simp at herr; omega
  match hreq : requiredIn c, hown with
  | [], _ =>
    rw [hreq] at herr
    have : errorsOf c = [] := List.length_eq_zero.mp (Nat.le_zero.mp herr)
    simp [settle, hreq, invalidMessages, this]
  | [f], _ =>
    have hone : ∀ m : String, errorsOf [Node.fieldError m] = [m] := fun _ => rfl
    cases hv : (validateFieldRules f).1 <;>
      simp [settle, hreq, invalidMessages, hv, errorsOf_append, errorsOf_removeFirstError, htail,
        hone]
  | _ :: _ :: _, h => simp at h

theorem allValid_iff (c : Container) : allValid c = true ↔ invalidMessages c = [] := by
  unfold allValid invalidMessages
  induction requiredIn c with
  | nil => simp
  | cons f fs ih =>
    cases hv : (validateFieldRules f).1 <;> simp [hv, List.filterMap_cons] at ih ⊢

/-- C7 (amended): when no two required fields share a parent element, and no
parent holds more inline error messages than required fields, `validateForm`
validates every required field, leaves in each parent exactly the messages of
its invalid required fields, and returns true exactly when there are none. -/
theorem validateForm_own_parents (form : Form)
    (hown : ∀ c ∈ form, (requiredIn c).length ≤ 1)
    (herr : ∀ c ∈ form, (errorsOf c).length ≤ (requiredIn c).length) :
    (validateForm form).1 = form.map settle ∧
    (validateForm form).1.map errorsOf = form.map invalidMessages ∧
    ((validateForm form).2 = true ↔ ∀ c ∈ form, invalidMessages c = []) := by
  have h := validateForm_fold form [] true hown
  simp only [List.length_nil, List.nil_append, Bool.true_and] at h
  have hform : validateForm form = (form.map settle, form.all allValid) := by
    unfold validateForm
    exact h
  rw [hform]
  refine ⟨rfl, ?_, ?_⟩
  · simp only [List.map_map]
    apply List.map_congr_left
    intro c hc
    exact errorsOf_settle c (hown c hc) (herr c hc)
  · simp only [List.all_eq_true]
    exact ⟨fun h c hc => (allValid_iff c).mp (h c hc), fun h c hc => (allValid_iff c).mpr (h c hc)⟩

theorem validateForm_own_parents_witness :
    (validateForm [[Node.field ⟨"owner", "", "text", true⟩],
        [Node.fieldError "stale", Node.field ⟨"area", "12", "number", true⟩]]).1 =
      [[Node.field ⟨"owner", "", "text", true⟩],
        [Node.fieldError "stale", Node.field ⟨"area", "12", "number", true⟩]].map settle :=
  (validateForm_own_parents
    [[Node.field ⟨"owner", "", "text", true⟩],
      [Node.fieldError "stale", Node.field ⟨"area", "12", "number", true⟩]]
    (by decide) (by decide)).1

/-- C7 as stated fails: two empty required fields in the same parent element
are both invalid, but after `validateForm` only one inline error message is in
the document. -/
theorem validateForm_shared_parent :
    validateForm [[Node.field ⟨"owner", "", "text", true⟩,
        Node.field ⟨"parcel", "", "text", true⟩]] =
      ([[Node.field ⟨"owner", "", "text", true⟩, Node.field ⟨"parcel", "", "text", true⟩,
         Node.fieldError "This field is required"]], false) ∧
    invalidMessages [Node.field ⟨"owner", "", "text", true⟩,
        Node.field ⟨"parcel", "", "text", true⟩] =
      ["This field is required", "This field is required"] := by
  decide

/-! ## API client -/

/-- C9: `lookupLand` never rejects.  It resolves to the decoded body when
`apiRequest` succeeds and to exactly `{success: false, message: "Error looking
up land details"}` on any failure: a non-success status, a network failure, a
body that does not decode.  `apiRequest` fails whenever the transport reports
a non-success status. -/
theorem lookupLand_total (fetch : String → TransportOutcome) (landId : String) :
    lookupLand fetch landId =
        .ok (match fetch ("/api/land/" ++ landId) with
             | .response true _ (some data) => data
             | _ => Json.object [("success", Json.bool false),
                      ("message", Json.string "Error looking up land details")]) ∧
    (∀ data, apiRequest fetch ("/api/land/" ++ landId) = .ok data →
      lookupLand fetch landId = .ok data) ∧
    (∀ err, apiRequest fetch ("/api/land/" ++ landId) = .error err →
      lookupLand fetch landId =
        .ok (Json.object [("success", Json.bool false),
              ("message", Json.string "Error looking up land details")])) ∧
    (∀ url status body, fetch url = .response false status body →
      apiRequest fetch url = .error (.http ("HTTP error! status: " ++ toString status))) ∧
    (∀ url reason, fetch url = .networkFailure reason →
      apiRequest fetch url = .error (.network reason)) ∧
    (∀ url status, fetch url = .response true status none →
      apiRequest fetch url = .error .decode) := by
  refine ⟨?_, ?_, ?_, ?_, ?_, ?_⟩
  · unfold lookupLand apiRequest
    cases h : fetch ("/api/land/" ++ landId) with
    | networkFailure reason => rfl
    | response ok status body =>
      cases ok
      · rfl
      · cases body <;> rfl
  · intro data h
    simp [lookupLand, h]
  · intro err h
    simp [lookupLand, h]
  · intro url status body h
    simp [apiRequest, h]
  · intro url reason h
    simp [apiRequest, h]
  · intro url status h
    simp [apiRequest, h]

theorem lookupLand_total_witness :
    lookupLand (fun _ => TransportOutcome.response false 500 none) "LR-7" =
      .ok (Json.object [("success", Json.bool false),
            ("message", Json.string "Error looking up land details")]) :=
  (lookupLand_total (fun _ => TransportOutcome.response false 500 none) "LR-7").2.2.1
    (.http "HTTP error! status: 500") rfl

/-! ## Tooltips -/

theorem showTooltip_length (doc : TooltipDoc) (t : Nat) :
    (showTooltip doc t).tooltips.length ≤ doc.tooltips.length + 1 ∧
      (showTooltip doc t).elements.length = doc.elements.length := by
  unfold showTooltip
  split
  · simp
  · split
    · simp
    · split
      · simp
      · simp [setCarrier]

theorem hideTooltip_length (doc : TooltipDoc) (t : Nat) (ht : t < doc.elements.length) :
    (hideTooltip doc t).tooltips.length = doc.tooltips.length - 1 ∧
      (hideTooltip doc t).elements.length = doc.elements.length := by
  unfold hideTooltip
  split
  · next h =>
    rw [List.get?_eq_none] at h
    omega
  · refine ⟨by simp, ?_⟩
    dsimp only
    split
    · rfl
    · split
      · rfl
      · simp [setCarrier]

theorem runPointerEvents_le_one (events : List PointerEvent) :
    ∀ doc : TooltipDoc, doc.tooltips.length ≤ 1 →
      (∀ e, events.head? = some e → e.isEnter = true → doc.tooltips = []) →
      (∀ e ∈ events, e.target < doc.elements.length) →
      enterLeaveAlternate events →
      (runPointerEvents doc events).tooltips.length ≤ 1 := by
  induction events with
  | nil => intro doc h _ _ _; simpa [runPointerEvents] using h
  | cons e rest ih =>
    intro doc hle hhead htargets hchain
    have hrest : enterLeaveAlternate rest := List.Chain'.tail hchain
    have he : e.target < doc.elements.length := htargets e (List.mem_cons_self _ _)
    show (runPointerEvents (handlePointer doc e) rest).tooltips.length ≤ 1
    cases e with
    | enter t =>
      have hempty : doc.tooltips = [] := hhead _ rfl rfl
      have hs := showTooltip_length doc t
      apply ih
      · have := hs.1; rw [hempty] at this; simpa [handlePointer] using this
      · intro e' he' henter
        exfalso
        cases rest with
        | nil => simp at he'
        | cons r rs =>
          simp only [List.head?_cons, Option.some.injEq] at he'
          subst he'
          have := (List.chain'_cons.mp hchain).1
          exact this ⟨rfl, henter⟩
      · intro e' he'
        simp only [handlePointer, hs.2]
        exact htargets e' (List.mem_cons_of_mem _ he')
      · exact hrest
    | leave t =>
      have hh := hideTooltip_length doc t he
      have hzero : (hideTooltip doc t).tooltips.length = 0 := by rw [hh.1]; omega
      apply ih
      · simp [handlePointer, hzero]
      · intro _ _ _
        exact List.length_eq_zero.mp hzero
      · intro e' he'
        simp only [handlePointer, hh.2]
        exact htargets e' (List.mem_cons_of_mem _ he')
      · exact hrest

/-- C10 (amended): starting from a document without synthetic tooltips, after
any sequence of pointer events on its elements in which no two pointer-enter
events follow each other without a pointer-leave between them, at most one
synthetic tooltip exists. -/
theorem tooltips_at_most_one (doc : TooltipDoc) (events : List PointerEvent)
    (hstart : doc.tooltips = [])
    (htargets : ∀ e ∈ events, e.target < doc.elements.length)
    (halt : enterLeaveAlternate events) :
    (runPointerEvents doc events).tooltips.length ≤ 1 :=
  runPointerEvents_le_one events doc (by simp [hstart]) (fun _ _ _ => hstart) htargets halt

theorem tooltips_at_most_one_witness :
    (runPointerEvents ⟨[⟨some "Owner", none⟩, ⟨some "Parcel", none⟩], []⟩
      [.enter 0, .leave 0, .enter 1]).tooltips.length ≤ 1 :=
  tooltips_at_most_one ⟨[⟨some "Owner", none⟩, ⟨some "Parcel", none⟩], []⟩
    [.enter 0, .leave 0, .enter 1] rfl (by decide)
    (by simp [enterLeaveAlternate, PointerEvent.isEnter])

/-- C10 as stated fails: entering a second element while the tooltip of the
first is still shown leaves two synthetic tooltips in the document. -/
theorem tooltips_two_after_two_enters :
    (runPointerEvents ⟨[⟨some "Owner", none⟩, ⟨some "Parcel", none⟩], []⟩
      [.enter 0, .enter 1]).tooltips = ["Owner", "Parcel"] := by
  decide

/-! ## Table sorting -/

theorem insertSorted_spec {α : Type} (cmp : α → α → Option Int) (R : α → α → Prop)
    (L : List α)
    (hcmp : ∀ a ∈ L, ∀ b ∈ L, ∃ v, cmp a b = some v ∧ (v ≤ 0 → R a b) ∧ (¬ v ≤ 0 → R b a))
    (htrans : ∀ a ∈ L, ∀ b ∈ L, ∀ c ∈ L, R a b → R b c → R a c)
    (x : α) (hx : x ∈ L) :
    ∀ ys : List α, (∀ y ∈ ys, y ∈ L) → ys.Pairwise R →
      ∃ r, insertSorted cmp x ys = some r ∧ r.Perm (x :: ys) ∧ r.Pairwise R := by
  intro ys
  induction ys with
  | nil => intro _ _; exact ⟨[x], rfl, List.Perm.refl _, List.pairwise_singleton _ _⟩
  | cons y ys ih =>
    intro hsub hsorted
    have hy : y ∈ L := hsub y (List.mem_cons_self _ _)
    have hys : ∀ z ∈ ys, z ∈ L := fun z hz => hsub z (List.mem_cons_of_mem _ hz)
    obtain ⟨v, hv, hle, hgt⟩ := hcmp x hx y hy
    have hyz : ∀ z ∈ ys, R y z := (List.pairwise_cons.mp hsorted).1
    by_cases hv0 : v ≤ 0
    · refine ⟨x :: y :: ys, by simp [insertSorted, hv, hv0], List.Perm.refl _, ?_⟩
      refine List.pairwise_cons.mpr ⟨?_, hsorted⟩
      intro z hz
      rcases List.mem_cons.mp hz with rfl | hz
      · exact hle hv0
      · exact htrans x hx y hy z (hys z hz) (hle hv0) (hyz z hz)
    · obtain ⟨r, hr, hperm, hrs⟩ := ih hys (List.pairwise_cons.mp hsorted).2
      refine ⟨y :: r, by simp [insertSorted, hv, hv0, hr], ?_, ?_⟩
      · exact (List.Perm.cons y hperm).trans (List.Perm.swap x y ys)
      · refine List.pairwise_cons.mpr ⟨?_, hrs⟩
        intro z hz
        rcases List.mem_cons.mp (hperm.subset hz) with rfl | hz
        · exact hgt hv0
        · exact hyz z hz

theorem arraySort_spec {α : Type} (cmp : α → α → Option Int) (R : α → α → Prop)
    (L : List α)
    (hcmp : ∀ a ∈ L, ∀ b ∈ L, ∃ v, cmp a b = some v ∧ (v ≤ 0 → R a b) ∧ (¬ v ≤ 0 → R b a))
    (htrans : ∀ a ∈ L, ∀ b ∈ L, ∀ c ∈ L, R a b → R b c → R a c) :
    ∀ l : List α, (∀ y ∈ l, y ∈ L) →
      ∃ r, arraySort cmp l = some r ∧ r.Perm l ∧ r.Pairwise R := by
  intro l
  induction l with
  | nil => intro _; exact ⟨[], rfl, List.Perm.refl _, List.Pairwise.nil⟩
  | cons x xs ih =>
    intro hsub
    obtain ⟨s, hs, hperm, hsorted⟩ := ih fun y hy => hsub y (List.mem_cons_of_mem _ hy)
    obtain ⟨r, hr, hperm', hsorted'⟩ :=
      insertSorted_spec cmp R L hcmp htrans x (hsub x (List.mem_cons_self _ _)) s
        (fun y hy => hsub y (List.mem_cons_of_mem _ (hperm.subset hy))) hsorted
    exact ⟨r, by simp [arraySort, hs, hr], hperm'.trans (List.Perm.cons x hperm), hsorted'⟩

theorem JSNumber.subSign_le (a b : JSNumber) (ha : a.isNaN = false) (hb : b.isNaN = false) :
    (JSNumber.subSign a b ≤ 0 → JSNumber.le a b = true) ∧
      (¬ JSNumber.subSign a b ≤ 0 → JSNumber.le b a = true) := by
  cases a <;> cases b <;> simp [JSNumber.isNaN] at ha hb <;>
    simp [JSNumber.subSign, JSNumber.le]
  rename_i x y
  constructor
  · intro h
    by_contra hlt
    have : 0 < x - y := by omega
    have := Int.sign_eq_one_of_pos this
    omega
  · intro h
    by_contra hlt
    have : x - y < 0 := by omega
    have := Int.sign_eq_neg_one_of_neg this
    omega

theorem JSNumber.le_trans (a b c : JSNumber) (hab : JSNumber.le a b = true)
    (hbc : JSNumber.le b c = true) : JSNumber.le a c = true := by
  cases a <;> cases b <;> cases c <;> simp [JSNumber.le] at hab hbc ⊢
  omega

theorem compareRows_ascending (lc : List Char → List Char → Int) (c : Nat) (a b : Row)
    (ha : c < a.length) (hb : c < b.length) :
    compareRows lc c true a b =
      some (if cellIsNumber c a = true ∧ cellIsNumber c b = true then
              JSNumber.subSign (parseFloat (cellText c a)) (parseFloat (cellText c b))
            else lc (cellText c a) (cellText c b)) := by
  have h1 : a.get? c = some a[c] := by simp [List.getElem?_eq_getElem ha]
  have h2 : b.get? c = some b[c] := by simp [List.getElem?_eq_getElem hb]
  simp only [compareRows, h1, h2, cellIsNumber, cellText, Option.getD_some, if_true,
    Bool.and_eq_true]

theorem sortTable_eq (lc : List Char → List Char → Int) (t : Table) (c : Nat) (h : Header)
    (icon : SortIcon) (hh : t.headers.get? c = some h) (hicon : h.icon = some icon) :
    sortTable lc t c =
      (arraySort (compareRows lc c (!h.sortDesc)) t.rows).map fun rows =>
        { headers := markHeaders (!h.sortDesc) (t.headers.map clearIcon) c, rows := rows } := by
  unfold sortTable
  simp only [hh, hicon]
  cases arraySort (compareRows lc c (!h.sortDesc)) t.rows <;> rfl

theorem sortTable_homogeneous (lc : List Char → List Char → Int) (hlc : ConsistentComparator lc)
    (t : Table) (c : Nat) (h : Header) (icon : SortIcon)
    (hh : t.headers.get? c = some h) (hicon : h.icon = some icon) (hdesc : h.sortDesc = false)
    (hcells : ∀ r ∈ t.rows, c < r.length)
    (hhom : (∀ r ∈ t.rows, cellIsNumber c r = true) ∨ (∀ r ∈ t.rows, cellIsNumber c r = false)) :
    ∃ t', sortTable lc t c = some t' ∧ t'.rows.Perm t.rows ∧ t'.rows.Pairwise (policyLe lc c) := by
  have htotal : ∀ x y, ¬ lc x y ≤ 0 → lc y x ≤ 0 := by
    intro x y hxy
    have := (hlc.1 y x).mpr (by omega)
    omega
  have hsort : ∃ r, arraySort (compareRows lc c true) t.rows = some r ∧ r.Perm t.rows ∧
      r.Pairwise (policyLe lc c) := by
    apply arraySort_spec (compareRows lc c true) (policyLe lc c) t.rows _ _ t.rows
      (fun y hy => hy)
    · intro a ha b hb
      refine ⟨_, compareRows_ascending lc c a b (hcells a ha) (hcells b hb), ?_⟩
      rcases hhom with hnum | hstr
      · have hna := hnum a ha
        have hnb := hnum b hb
        have hsl := JSNumber.subSign_le (parseFloat (cellText c a)) (parseFloat (cellText c b))
          (by simpa [cellIsNumber] using hna) (by simpa [cellIsNumber] using hnb)
        simp only [policyLe, hna, hnb, and_self, if_true]
        exact hsl
      · have hna := hstr a ha
        have hnb := hstr b hb
        simp only [policyLe, hna, hnb, Bool.false_eq_true, false_and, and_false, if_false]
        exact ⟨fun h => h, htotal _ _⟩
    · intro x hx y hy z hz hxy hyz
      rcases hhom with hnum | hstr
      · have hnx := hnum x hx
        have hny := hnum y hy
        have hnz := hnum z hz
        simp only [policyLe, hnx, hny, hnz, and_self, if_true] at hxy hyz ⊢
        exact JSNumber.le_trans _ _ _ hxy hyz
      · have hnx := hstr x hx
        have hny := hstr y hy
        simp only [policyLe, hnx, hny, Bool.false_eq_true, false_and, if_false] at hxy hyz ⊢
        exact hlc.2 _ _ _ hxy hyz
  obtain ⟨r, hr, hperm, hsorted⟩ := hsort
  refine ⟨{ headers := markHeaders true (t.headers.map clearIcon) c, rows := r }, ?_, hperm,
    hsorted⟩
  rw [sortTable_eq lc t c h icon hh hicon, hdesc]
  simp only [Bool.not_false, hr, Option.map_some']

set_option exponentiation.threshold 5000 in
theorem sortTable_numbers (lc : List Char → List Char → Int) :
    (sortTable lc ⟨[freshHeader], [["10"], ["2"], ["33"]]⟩ 0).map (·.rows) =
      some [["2"], ["10"], ["33"]] := by
  rfl

theorem sortTable_letters (lc : List Char → List Char → Int) (hlc : ConsistentComparator lc)
    (hab : lc ['a'] ['b'] < 0) (hbc : lc ['b'] ['c'] < 0) :
    (sortTable lc ⟨[freshHeader], [["b"], ["a"], ["c"]]⟩ 0).map (·.rows) =
      some [["a"], ["b"], ["c"]] := by
  have hac : lc ['a'] ['c'] ≤ 0 := hlc.2 ['a'] ['b'] ['c'] (by omega) (by omega)
  have hba : ¬ lc ['b'] ['a'] ≤ 0 := by
    have := (hlc.1 _ _).mp hab
    omega
  have hbc' : lc ['b'] ['c'] ≤ 0 := by omega
  have ha : jsTrim "a" = ['a'] := by decide
  have hb : jsTrim "b" = ['b'] := by decide
  have hc : jsTrim "c" = ['c'] := by decide
  have pa : parseFloat ['a'] = .nan := by decide
  have pb : parseFloat ['b'] = .nan := by decide
  have pc : parseFloat ['c'] = .nan := by decide
  simp [sortTable, freshHeader, arraySort, insertSorted, compareRows, ha, hb, hc, pa, pb, pc,
    JSNumber.isNaN, hac, hba, hbc']

theorem codePointCompare_swap (a : List Char) :
    ∀ b, codePointCompare b a = - codePointCompare a b := by
  induction a with
  | nil => intro b; cases b <;> simp [codePointCompare]
  | cons x xs ih =>
    intro b
    cases b with
    | nil => simp [codePointCompare]
    | cons y ys =>
      simp only [codePointCompare]
      by_cases h1 : x.toNat < y.toNat
      · have h2 : ¬ y.toNat < x.toNat := by omega
        simp [h1, h2]
      · by_cases h2 : y.toNat < x.toNat
        · simp [h1, h2]
        · simp [h1, h2, ih ys]

theorem codePointCompare_trans (a : List Char) :
    ∀ b c, codePointCompare a b ≤ 0 → codePointCompare b c ≤ 0 → codePointCompare a c ≤ 0 := by
  induction a with
  | nil => intro b c _ _; cases c <;> simp [codePointCompare]
  | cons x xs ih =>
    intro b c hab hbc
    cases b with
    | nil => simp [codePointCompare] at hab
    | cons y ys =>
      cases c with
      | nil => simp [codePointCompare] at hbc
      | cons z zs =>
        simp only [codePointCompare] at hab hbc ⊢
        by_cases h1 : x.toNat < y.toNat
        · by_cases h2 : y.toNat < z.toNat
          · have : x.toNat < z.toNat := by omega
            simp [this]
          · by_cases h3 : z.toNat < y.toNat
            · simp [h2, h3] at hbc
            · have : x.toNat < z.toNat := by omega
              simp [this]
        · by_cases h1' : y.toNat < x.toNat
          · simp [h1, h1'] at hab
          · simp only [h1, h1', if_false] at hab
            by_cases h2 : y.toNat < z.toNat
            · have : x.toNat < z.toNat := by omega
              simp [this]
            · by_cases h3 : z.toNat < y.toNat
              · simp [h2, h3] at hbc
              · simp only [h2, h3, if_false] at hbc
                have e1 : ¬ x.toNat < z.toNat := by omega
                have e2 : ¬ z.toNat < x.toNat := by omega
                simp only [e1, e2, if_false]
                exact ih ys zs hab hbc

theorem codePointCompare_consistent : ConsistentComparator codePointCompare := by
  refine ⟨fun a b => ?_, fun a b c => codePointCompare_trans a b c⟩
  rw [codePointCompare_swap a b]
  omega

/-- C1: on a table without prior sort state, `sortTable(table, c)` on a column
whose cells all parse as numbers, or none does, leaves the body holding a
permutation of the rows in ascending order under the comparison policy; the
values 10, 2, 33 end up as 2, 10, 33 and b, a, c as a, b, c.  The collation is
any consistent comparator (one that puts a before b before c, for the letters). -/
theorem sortTable_ascending :
    (∀ (lc : List Char → List Char → Int) (t : Table) (c : Nat) (h : Header) (icon : SortIcon),
      ConsistentComparator lc →
      (∀ h' ∈ t.headers, h'.sortAsc = false ∧ h'.sortDesc = false) →
      t.headers.get? c = some h → h.icon = some icon →
      (∀ r ∈ t.rows, c < r.length) →
      ((∀ r ∈ t.rows, cellIsNumber c r = true) ∨ (∀ r ∈ t.rows, cellIsNumber c r = false)) →
      ∃ t', sortTable lc t c = some t' ∧ t'.rows.Perm t.rows ∧
        t'.rows.Pairwise (policyLe lc c)) ∧
    (∀ lc : List Char → List Char → Int,
      (sortTable lc ⟨[freshHeader], [["10"], ["2"], ["33"]]⟩ 0).map (·.rows) =
        some [["2"], ["10"], ["33"]]) ∧
    (∀ lc : List Char → List Char → Int, ConsistentComparator lc →
      lc ['a'] ['b'] < 0 → lc ['b'] ['c'] < 0 →
      (sortTable lc ⟨[freshHeader], [["b"], ["a"], ["c"]]⟩ 0).map (·.rows) =
        some [["a"], ["b"], ["c"]]) := by
  refine ⟨?_, sortTable_numbers, sortTable_letters⟩
  intro lc t c h icon hlc hstate hh hicon hcells hhom
  have hmem : h ∈ t.headers := List.get?_mem hh
  exact sortTable_homogeneous lc hlc t c h icon hh hicon (hstate h hmem).2 hcells hhom

theorem sortTable_ascending_witness :
    (sortTable codePointCompare ⟨[freshHeader], [["b"], ["a"], ["c"]]⟩ 0).map (·.rows) =
      some [["a"], ["b"], ["c"]] :=
  sortTable_ascending.2.2 codePointCompare codePointCompare_consistent (by decide) (by decide)

/-- C2 fails on the script: two calls of `sortTable` on the same column of a
table without prior sort state both sort ascending (the header keeps
`sort-asc`), so the second call does not reverse the rows. -/
theorem sortTable_second_call_same_order :
    (sortTable codePointCompare ⟨[freshHeader], [["b"], ["a"]]⟩ 0) =
      some ⟨[⟨true, false, some ⟨"fas fa-sort-up", "1"⟩⟩], [["a"], ["b"]]⟩ ∧
    (sortTable codePointCompare ⟨[⟨true, false, some ⟨"fas fa-sort-up", "1"⟩⟩],
        [["a"], ["b"]]⟩ 0) =
      some ⟨[⟨true, false, some ⟨"fas fa-sort-up", "1"⟩⟩], [["a"], ["b"]]⟩ := by
  constructor <;> decide

theorem markHeaders_sortDesc (asc : Bool) (hs : List Header) :
    ∀ i, ((markHeaders asc hs i).get? i).map (·.sortDesc) = (hs.get? i).map fun _ => !asc := by
  induction hs with
  | nil => intro i; simp [markHeaders]
  | cons h hs ih =>
    intro i
    cases i with
    | zero => simp [markHeaders]
    | succ i => simpa [markHeaders] using ih i

/-- The clicked header keeps its `sort-desc` class, or its absence, across a
call: the direction of the next call is the direction of this one. -/
theorem sortTable_keeps_direction (lc : List Char → List Char → Int) (t t' : Table) (c : Nat)
    (h : sortTable lc t c = some t') :
    (t'.headers.get? c).map (·.sortDesc) = (t.headers.get? c).map (·.sortDesc) := by
  unfold sortTable at h
  simp only [List.get?_eq_getElem?] at h ⊢
  cases hh : t.headers[c]? with
  | none => simp [hh] at h
  | some hd =>
    cases hicon : hd.icon with
    | none => simp [hh, hicon] at h
    | some icon =>
      simp only [hh, hicon] at h
      cases hs : arraySort (compareRows lc c (!hd.sortDesc)) t.rows with
      | none => simp [hs] at h
      | some rows =>
        simp only [hs, Option.some.injEq] at h
        subst h
        have hm := markHeaders_sortDesc (!hd.sortDesc) (t.headers.map clearIcon) c
        simp only [List.get?_eq_getElem?, List.getElem?_map, hh, Option.map_some',
          Bool.not_not] at hm ⊢
        exact hm

/-! ## Draft autosave -/

theorem find?_replace (es : List (String × String)) (key value : String)
    (hany : ∃ e ∈ es, e.1 = key) :
    (es.map fun e => if e.1 = key then (key, value) else e).find? (fun e => decide (e.1 = key)) =
      some (key, value) := by
  induction es with
  | nil => obtain ⟨e, he, -⟩ := hany; simp at he
  | cons e es ih =>
    by_cases he : e.1 = key
    · simp [List.find?_cons, he]
    · have : ∃ e ∈ es, e.1 = key := by
        obtain ⟨x, hx, hxk⟩ := hany
        rcases List.mem_cons.mp hx with rfl | hx
        · exact absurd hxk he
        · exact ⟨x, hx, hxk⟩
      rw [List.map_cons, List.find?_cons]
      simp only [he, if_false, decide_False]
      exact ih this

theorem find?_append_new (es : List (String × String)) (key value : String)
    (hnone : ∀ e ∈ es, e.1 ≠ key) :
    (es ++ [(key, value)]).find? (fun e => decide (e.1 = key)) = some (key, value) := by
  induction es with
  | nil => simp
  | cons e es ih =>
    have he : e.1 ≠ key := hnone e (List.mem_cons_self _ _)
    rw [List.cons_append, List.find?_cons]
    simp only [he, decide_False]
    exact ih fun x hx => hnone x (List.mem_cons_of_mem _ hx)

theorem getItem_setItem (store : Storage) (key value : String) :
    getItem (setItem store key value) key = some value := by
  unfold getItem setItem
  by_cases hany : (store.any fun e => decide (e.1 = key)) = true
  · rw [if_pos hany, find?_replace store key value (by simpa using hany)]
    rfl
  · have hnone : ∀ e ∈ store, e.1 ≠ key := by
      intro e he hek
      exact hany (List.any_eq_true.mpr ⟨e, he, by simpa using hek⟩)
    rw [if_neg hany, find?_append_new store key value hnone]
    rfl


/-! ### The object built from the entries -/

theorem lookup_cons_eq {α : Type} (a : String) (b : α) (l : List (String × α)) :
    ((a, b) :: l).lookup a = some b := by
  simp [List.lookup]

theorem lookup_cons_ne {α : Type} (k a : String) (b : α) (l : List (String × α)) (h : k ≠ a) :
    ((a, b) :: l).lookup k = l.lookup k := by
  have hb : (k == a) = false := by simpa using h
  simp [List.lookup, hb]

theorem lookup_map_replace (k : String) (v : EntryValue) (k' : String) (d : JSObject) :
    (d.map fun e => if e.1 = k then (k, v) else e).lookup k' =
      if k' = k then (if d.any (fun e => e.1 = k) then some v else none) else d.lookup k' := by
  induction d with
  | nil => simp [List.lookup]
  | cons e es ih =>
    obtain ⟨a, b⟩ := e
    rw [List.map_cons]
    by_cases hak : a = k
    · have hhead : (if (a, b).1 = k then (k, v) else (a, b)) = (k, v) := if_pos hak
      rw [hhead]
      by_cases hk' : k' = k
      · rw [hk', lookup_cons_eq]
        simp [hak]
      · rw [lookup_cons_ne k' k v _ hk', ih, if_neg hk', if_neg hk',
          lookup_cons_ne k' a b _ (by rw [hak]; exact hk')]
    · have hhead : (if (a, b).1 = k then (k, v) else (a, b)) = (a, b) := if_neg hak
      rw [hhead]
      by_cases hka : k' = a
      · have hk' : k' ≠ k := by rw [hka]; exact hak
        rw [hka, lookup_cons_eq, if_neg (by rw [← hka]; exact hk'), lookup_cons_eq]
      · rw [lookup_cons_ne k' a b _ hka, ih, lookup_cons_ne k' a b _ hka]
        by_cases hk' : k' = k
        · have hd : decide (a = k) = false := by simpa using hak
          simp only [hk', if_true, List.any_cons, hd, Bool.false_or]
        · simp [hk']

theorem lookup_append_single (k : String) (v : EntryValue) (k' : String) (d : JSObject)
    (hnone : ∀ e ∈ d, e.1 ≠ k) :
    (d ++ [(k, v)]).lookup k' = if k' = k then some v else d.lookup k' := by
  induction d with
  | nil =>
    by_cases h : k' = k
    · rw [h, List.nil_append, lookup_cons_eq, if_pos rfl]
    · rw [List.nil_append, lookup_cons_ne k' k v _ h, if_neg h]
  | cons e es ih =>
    obtain ⟨a, b⟩ := e
    have hak : a ≠ k := hnone (a, b) (List.mem_cons_self _ _)
    have ih' := ih fun x hx => hnone x (List.mem_cons_of_mem _ hx)
    rw [List.cons_append]
    by_cases hka : k' = a
    · rw [hka, lookup_cons_eq, lookup_cons_eq, if_neg hak]
    · rw [lookup_cons_ne k' a b _ hka, ih', lookup_cons_ne k' a b _ hka]

theorem lookup_set (d : JSObject) (k : String) (v : EntryValue) (k' : String)
    (hk : k ≠ "__proto__") :
    (JSObject.set d k v).lookup k' = if k' = k then some v else d.lookup k' := by
  unfold JSObject.set
  rw [if_neg hk]
  by_cases hany : (d.any fun e => decide (e.1 = k)) = true
  · rw [if_pos hany, lookup_map_replace]
    simp [hany]
  · rw [if_neg hany]
    apply lookup_append_single
    intro e he hek
    exact hany (List.any_eq_true.mpr ⟨e, he, by simpa using hek⟩)

theorem keys_set (d : JSObject) (k : String) (v : EntryValue) :
    (JSObject.set d k v).map (·.1) = d.map (·.1) ∨
      ((∀ e ∈ d, e.1 ≠ k) ∧ (JSObject.set d k v).map (·.1) = d.map (·.1) ++ [k]) := by
  unfold JSObject.set
  by_cases hk : k = "__proto__"
  · left; rw [if_pos hk]
  · rw [if_neg hk]
    by_cases hany : (d.any fun e => decide (e.1 = k)) = true
    · left
      rw [if_pos hany, List.map_map]
      apply List.map_congr_left
      intro e _
      by_cases he : e.1 = k <;> simp [he]
    · right
      rw [if_neg hany]
      refine ⟨?_, by simp⟩
      intro e he hek
      exact hany (List.any_eq_true.mpr ⟨e, he, by simpa using hek⟩)

theorem mem_set (d : JSObject) (k : String) (v : EntryValue) (e : String × EntryValue)
    (he : e ∈ JSObject.set d k v) : e ∈ d ∨ e = (k, v) := by
  unfold JSObject.set at he
  split at he
  · exact Or.inl he
  · split at he
    · rw [List.mem_map] at he
      obtain ⟨x, hx, hxe⟩ := he
      by_cases h : x.1 = k
      · rw [if_pos h] at hxe; exact Or.inr hxe.symm
      · rw [if_neg h] at hxe; exact Or.inl (hxe ▸ hx)
    · rcases List.mem_append.mp he with h | h
      · exact Or.inl h
      · exact Or.inr (by simpa using h)

theorem foldl_set_lookup (k : String) (es : List (String × EntryValue)) :
    ∀ acc : JSObject, (∀ e ∈ es, e.1 ≠ "__proto__") →
      (es.foldl (fun (d : JSObject) e => d.set e.1 e.2) acc).lookup k =
        match lastValue es k with
        | some v => some v
        | none => acc.lookup k := by
  induction es with
  | nil => intro acc _; rfl
  | cons e es ih =>
    intro acc hproto
    have he : e.1 ≠ "__proto__" := hproto e (List.mem_cons_self _ _)
    rw [List.foldl_cons, ih _ fun x hx => hproto x (List.mem_cons_of_mem _ hx)]
    simp only [lastValue]
    cases hl : lastValue es k with
    | some v => rfl
    | none =>
      simp only [lookup_set acc e.1 e.2 k he]
      by_cases hke : k = e.1
      · subst hke; simp
      · have : ¬ e.1 = k := fun h => hke h.symm
        simp [hke, this]

theorem foldl_set_keys (es : List (String × EntryValue)) :
    ∀ acc : JSObject, (acc.map (·.1)).Nodup →
      ((es.foldl (fun (d : JSObject) e => d.set e.1 e.2) acc).map (·.1)).Nodup ∧
      (∀ k ∈ (es.foldl (fun (d : JSObject) e => d.set e.1 e.2) acc).map (·.1),
        k ∈ acc.map (·.1) ∨ k ∈ es.map (·.1)) ∧
      (∀ x ∈ es.foldl (fun (d : JSObject) e => d.set e.1 e.2) acc, x ∈ acc ∨ x ∈ es) := by
  induction es with
  | nil => intro acc h; exact ⟨h, fun k hk => Or.inl hk, fun x hx => Or.inl hx⟩
  | cons e es ih =>
    intro acc hacc
    have hnodup : ((JSObject.set acc e.1 e.2).map (·.1)).Nodup := by
      rcases keys_set acc e.1 e.2 with h | ⟨hnone, h⟩
      · rw [h]; exact hacc
      · rw [h]
        refine List.Nodup.append hacc (List.nodup_singleton _) ?_
        intro x hx hx'
        simp only [List.mem_singleton] at hx'
        subst hx'
        obtain ⟨y, hy, hyx⟩ := List.mem_map.mp hx
        exact hnone y hy hyx
    obtain ⟨h1, h2, h3⟩ := ih (JSObject.set acc e.1 e.2) hnodup
    refine ⟨h1, ?_, ?_⟩
    · intro k hk
      rcases h2 k hk with h | h
      · rcases keys_set acc e.1 e.2 with hs | ⟨-, hs⟩
        · rw [hs] at h; exact Or.inl h
        · rw [hs] at h
          rcases List.mem_append.mp h with h | h
          · exact Or.inl h
          · right; simp only [List.mem_singleton] at h; simp [h]
      · right; simp only [List.map_cons, List.mem_cons]; exact Or.inr h
    · intro x hx
      rcases h3 x hx with h | h
      · rcases mem_set acc e.1 e.2 x h with h | h
        · exact Or.inl h
        · right; rw [h]; exact List.mem_cons_self _ _
      · exact Or.inr (List.mem_cons_of_mem _ h)

theorem ownEntries_perm (data : JSObject) : (ownEntries data).Perm data := by
  unfold ownEntries
  have h1 : ((data.filterMap fun e => (arrayIndex e.1).map fun n => (n, e)).map (·.2)) =
      data.filter fun e => (arrayIndex e.1).isSome := by
    induction data with
    | nil => rfl
    | cons e es ih =>
      cases h : arrayIndex e.1 <;> simp [List.filterMap_cons, List.filter_cons, h, ih]
  have h2 : (((data.filterMap fun e => (arrayIndex e.1).map fun n => (n, e)).insertionSort
      (fun a b => a.1 ≤ b.1)).map (·.2)).Perm (data.filter fun e => (arrayIndex e.1).isSome) := by
    rw [← h1]
    exact (List.perm_insertionSort _ _).map _
  have h3 : (data.filter fun e => (arrayIndex e.1).isNone) =
      data.filter fun e => !(arrayIndex e.1).isSome := by
    congr 1
    funext e
    cases arrayIndex e.1 <;> rfl
  rw [h3]
  exact (h2.append_right _).trans (List.filter_append_perm _ _)

theorem lookup_eq_some_iff {α : Type} (es : List (String × α)) (k : String) (v : α)
    (hnodup : (es.map (·.1)).Nodup) : es.lookup k = some v ↔ (k, v) ∈ es := by
  induction es with
  | nil => simp [List.lookup]
  | cons e es ih =>
    obtain ⟨a, b⟩ := e
    simp only [List.map_cons, List.nodup_cons] at hnodup
    by_cases hka : k = a
    · subst hka
      simp only [List.lookup, beq_self_eq_true, Option.some.injEq, List.mem_cons, Prod.mk.injEq,
        true_and]
      constructor
      · intro h; exact Or.inl h.symm
      · rintro (h | h)
        · exact h.symm
        · exact absurd (List.mem_map_of_mem (·.1) h) hnodup.1
    · have hb : (k == a) = false := by simpa using hka
      simp only [List.lookup, hb, ih hnodup.2, List.mem_cons, Prod.mk.injEq, hka, false_and,
        false_or]

theorem lookup_perm {α : Type} (l₁ l₂ : List (String × α)) (k : String) (hp : l₁.Perm l₂)
    (hnodup : (l₁.map (·.1)).Nodup) : l₁.lookup k = l₂.lookup k := by
  have hnodup₂ : (l₂.map (·.1)).Nodup := (hp.map _).nodup_iff.mp hnodup
  cases h : l₂.lookup k with
  | some v =>
    exact (lookup_eq_some_iff l₁ k v hnodup).mpr
      (hp.symm.subset ((lookup_eq_some_iff l₂ k v hnodup₂).mp h))
  | none =>
    cases h' : l₁.lookup k with
    | none => rfl
    | some v =>
      have := (lookup_eq_some_iff l₂ k v hnodup₂).mpr
        (hp.subset ((lookup_eq_some_iff l₁ k v hnodup).mp h'))
      rw [h] at this
      exact absurd this (by simp)

theorem lookup_map_value {α β : Type} (f : α → β) (l : List (String × α)) (k : String) :
    (l.map fun e => (e.1, f e.2)).lookup k = (l.lookup k).map f := by
  induction l with
  | nil => rfl
  | cons e es ih =>
    obtain ⟨a, b⟩ := e
    by_cases hka : (k == a) = true
    · simp [List.lookup, hka]
    · have hb : (k == a) = false := by simpa using hka
      simp only [List.map_cons, List.lookup, hb, ih]

theorem lastValue_mem {α : Type} (l : List (String × α)) (k : String) (v : α)
    (h : lastValue l k = some v) : (k, v) ∈ l := by
  induction l with
  | nil => simp [lastValue] at h
  | cons e es ih =>
    simp only [lastValue] at h
    cases hl : lastValue es k with
    | some w =>
      rw [hl] at h
      simp only [Option.some.injEq] at h
      subst h
      exact List.mem_cons_of_mem _ (ih hl)
    | none =>
      rw [hl] at h
      by_cases he : e.1 = k
      · simp only [he, if_true, Option.some.injEq] at h
        subst h
        rw [← he]
        exact List.mem_cons_self _ _
      · simp [he] at h

theorem lastValue_none {α : Type} (l : List (String × α)) (k : String)
    (h : ∀ e ∈ l, e.1 ≠ k) : lastValue l k = none := by
  induction l with
  | nil => rfl
  | cons e es ih =>
    simp only [lastValue, ih fun x hx => h x (List.mem_cons_of_mem _ hx),
      h e (List.mem_cons_self _ _), if_false]

theorem lastValue_append {α : Type} (a b : List (String × α)) (k : String) :
    lastValue (a ++ b) k =
      match lastValue b k with
      | some v => some v
      | none => lastValue a k := by
  induction a with
  | nil =>
    rw [List.nil_append]
    cases h : lastValue b k <;> rfl
  | cons e es ih =>
    rw [List.cons_append]
    show (match lastValue (es ++ b) k with
      | some v => some v
      | none => if e.1 = k then some e.2 else none) = _
    rw [ih]
    cases h : lastValue b k <;> rfl

/-! ### The loading loop -/

theorem setValue_getD (c : Control) (v : String) :
    ((c.setValue v).getD c).name = c.name ∧ ((c.setValue v).getD c).inside = c.inside := by
  unfold Control.setValue
  cases c.state <;> simp
  split <;> simp

theorem setValueAt_findIdx (k v : String) (hk : k ≠ "") (cs : Controls)
    (hnames : ((cs.map (·.name)).filter (· ≠ "")).Nodup)
    (hset : ∀ c ∈ cs, c.inside = true → c.name = k → c.setValue v ≠ none) :
    setValueAt cs (cs.findIdx fun c => c.inside && decide (c.name = k)) v =
      some (cs.map fun c =>
        if c.inside = true ∧ c.name = k then (c.setValue v).getD c else c) := by
  induction cs with
  | nil => simp [setValueAt]
  | cons f fs ih =>
    rw [List.findIdx_cons]
    have hnames' : ((fs.map (·.name)).filter (· ≠ "")).Nodup := by
      simp only [List.map_cons, List.filter_cons] at hnames
      split at hnames
      · exact (List.nodup_cons.mp hnames).2
      · exact hnames
    by_cases hf : f.name = k
    · have hfne : f.name ≠ "" := by rw [hf]; exact hk
      simp only [List.map_cons, List.filter_cons, hfne, ne_eq, not_false_eq_true, decide_True,
        if_true, List.nodup_cons] at hnames
      have htail : ∀ g ∈ fs, g.name ≠ k := by
        intro g hg hgk
        apply hnames.1
        rw [List.mem_filter]
        exact ⟨List.mem_map.mpr ⟨g, hg, by rw [hgk, hf]⟩, by simpa using hfne⟩
      have hmap : (fs.map fun c =>
          if c.inside = true ∧ c.name = k then (c.setValue v).getD c else c) = fs := by
        conv_rhs => rw [← List.map_id fs]
        apply List.map_congr_left
        intro g hg
        simp [htail g hg]
      by_cases hin : f.inside = true
      · obtain ⟨f', hf'⟩ : ∃ f', f.setValue v = some f' := by
          cases h : f.setValue v with
          | none => exact absurd h (hset f (List.mem_cons_self _ _) hin hf)
          | some f' => exact ⟨f', rfl⟩
        simp [hf, hin, setValueAt, hf', hmap]
      · have hin' : f.inside = false := by simpa using hin
        have ih' := ih hnames' fun c hc => hset c (List.mem_cons_of_mem _ hc)
        have hp : (f.inside && decide (f.name = k)) = false := by simp [hin']
        rw [hp]
        simp only [hin', cond_false, setValueAt, ih', Option.map_some',
          List.map_cons, Bool.false_eq_true, false_and, if_false]
    · have ih' := ih hnames' fun c hc => hset c (List.mem_cons_of_mem _ hc)
      have hp : (f.inside && decide (f.name = k)) = false := by simp [hf]
      rw [hp]
      simp only [cond_false, setValueAt, ih', Option.map_some', List.map_cons, hf, and_false,
        if_false]

theorem names_map_update (k v : String) (cs : Controls) :
    (cs.map fun c => if c.inside = true ∧ c.name = k then (c.setValue v).getD c else c).map
        (·.name) = cs.map (·.name) := by
  rw [List.map_map]
  apply List.map_congr_left
  intro f _
  by_cases h : f.inside = true ∧ f.name = k
  · simp only [Function.comp, h, and_self, if_true]
    rw [(setValue_getD f v).1, h.2]
  · simp [Function.comp, h]

theorem lookup_none_of_not_mem {α : Type} (es : List (String × α)) (k : String)
    (h : k ∉ es.map (·.1)) : es.lookup k = none := by
  induction es with
  | nil => rfl
  | cons e es ih =>
    obtain ⟨a, b⟩ := e
    simp only [List.map_cons, List.mem_cons, not_or] at h
    rw [lookup_cons_ne k a b _ h.1]
    exact ih h.2

theorem loadEntries_eq_map (cssQuery : String → Controls → Except Unit (Option Nat))
    (es : List (String × String)) :
    ∀ cs : Controls, ((cs.map (·.name)).filter (· ≠ "")).Nodup →
      (es.map (·.1)).Nodup → (∀ e ∈ es, selectorSafe e.1 = true) →
      (∀ c ∈ cs, c.inside = true → ∀ v, es.lookup c.name = some v → c.setValue v ≠ none) →
      loadEntries cssQuery cs es = cs.map (applyEntries es) := by
  induction es with
  | nil =>
    intro cs _ _ _ _
    have hid : ∀ f : Control, applyEntries [] f = f := fun _ => rfl
    simp only [loadEntries]
    conv_lhs => rw [← List.map_id cs]
    apply List.map_congr_left
    intro f _
    exact (hid f).symm
  | cons e es ih =>
    intro cs hnames hkeys hsafe hset
    obtain ⟨k, v⟩ := e
    have hk : selectorSafe k = true := hsafe (k, v) (List.mem_cons_self _ _)
    have hkne : k ≠ "" := by
      intro h
      rw [h] at hk
      simp [selectorSafe] at hk
    have hsafe' : ∀ e ∈ es, selectorSafe e.1 = true :=
      fun e he => hsafe e (List.mem_cons_of_mem _ he)
    simp only [List.map_cons, List.nodup_cons] at hkeys
    have hfresh : es.lookup k = none := lookup_none_of_not_mem es k hkeys.1
    have hstep : ∀ f : Control,
        applyEntries ((k, v) :: es) f =
          applyEntries es
            (if f.inside = true ∧ f.name = k then (f.setValue v).getD f else f) := by
      intro f
      by_cases hf : f.name = k
      · by_cases hin : f.inside = true
        · have h1 : applyEntries ((k, v) :: es) f = (f.setValue v).getD f := by
            unfold applyEntries
            rw [hf, lookup_cons_eq]
            simp [hin]
          have h2 : applyEntries es ((f.setValue v).getD f) = (f.setValue v).getD f := by
            unfold applyEntries
            rw [(setValue_getD f v).1, hf, hfresh]
          rw [h1, if_pos ⟨hin, hf⟩, h2]
        · have h1 : applyEntries ((k, v) :: es) f = f := by
            unfold applyEntries
            rw [hf, lookup_cons_eq]
            simp [hin]
          have h2 : applyEntries es f = f := by
            unfold applyEntries
            rw [hf, hfresh]
          rw [h1, if_neg (fun h => hin h.1), h2]
      · rw [if_neg (fun h => hf h.2)]
        unfold applyEntries
        rw [lookup_cons_ne f.name k v es hf]
    have hmap : cs.map (applyEntries ((k, v) :: es)) =
        (cs.map fun f => if f.inside = true ∧ f.name = k then (f.setValue v).getD f else f).map
          (applyEntries es) := by
      rw [List.map_map]
      apply List.map_congr_left
      intro f _
      exact hstep f
    have hset' : ∀ c ∈ cs.map (fun f =>
        if f.inside = true ∧ f.name = k then (f.setValue v).getD f else f),
        c.inside = true → ∀ w, es.lookup c.name = some w → c.setValue w ≠ none := by
      intro c hc hin w hw
      obtain ⟨f, hf, rfl⟩ := List.mem_map.mp hc
      by_cases hcond : f.inside = true ∧ f.name = k
      · rw [if_pos hcond] at hw
        rw [(setValue_getD f v).1, hcond.2, hfresh] at hw
        exact absurd hw (by simp)
      · rw [if_neg hcond] at hw hin ⊢
        have hfk : f.name ≠ k := fun h => hcond ⟨hin, h⟩
        exact hset f hf hin w (by rw [lookup_cons_ne f.name k v es hfk]; exact hw)
    rw [hmap]
    by_cases hany : (cs.any fun c => c.inside && decide (c.name = k)) = true
    · have hfind := setValueAt_findIdx k v hkne cs hnames (by
        intro c hc hin hck
        exact hset c hc hin v (by rw [hck, lookup_cons_eq]))
      simp only [loadEntries, querySelectorName, hk, if_true, hany, hfind]
      apply ih _ _ hkeys.2 hsafe' hset'
      rw [names_map_update]
      exact hnames
    · simp only [loadEntries, querySelectorName, hk, if_true, hany, Bool.false_eq_true,
        if_false]
      have hid : (cs.map fun f =>
          if f.inside = true ∧ f.name = k then (f.setValue v).getD f else f) = cs := by
        conv_rhs => rw [← List.map_id cs]
        apply List.map_congr_left
        intro g hg
        have : ¬ (g.inside = true ∧ g.name = k) := by
          rintro ⟨h1, h2⟩
          exact hany (List.any_eq_true.mpr ⟨g, hg, by simp [h1, h2]⟩)
        simp [this]
      rw [hid] at hset' ⊢
      exact ih cs hnames hkeys.2 hsafe' hset'

/-! ### Saving and loading a draft -/

theorem entries_key (c : Control) (e : String × EntryValue) (he : e ∈ c.entries) :
    e.1 ∈ (if c.name = "" then [] else [c.name]) ++ (if c.dirname = "" then [] else [c.dirname]) := by
  unfold Control.entries at he
  by_cases h0 : (!c.owned || c.disabled || decide (c.name = "")) = true
  · rw [if_pos h0] at he; simp at he
  · rw [if_neg h0] at he
    have hname : c.name ≠ "" := by
      intro h; apply h0; simp [h]
    cases hs : c.state with
    | button v => rw [hs] at he; simp at he
    | unlisted v => rw [hs] at he; simp at he
    | checkable v checked =>
      rw [hs] at he
      cases checked <;> simp at he
      rw [he]; simp [hname]
    | select options =>
      rw [hs] at he
      simp only [List.mem_map] at he
      obtain ⟨o, -, rfl⟩ := he
      simp [hname]
    | file p =>
      rw [hs] at he
      simp only [List.mem_singleton] at he
      rw [he]; simp [hname]
    | text v =>
      rw [hs] at he
      simp only [List.mem_cons] at he
      rcases he with he | he
      · rw [he]; simp [hname]
      · by_cases hd : c.dirname = ""
        · simp [hd] at he
        · simp only [hd, if_false, List.mem_singleton] at he
          rw [he]; simp [hd]

theorem entries_file (c : Control) (e : String × EntryValue) (he : e ∈ c.entries)
    (hfile : ∃ p, c.state = .file p) : e.2 = .file := by
  obtain ⟨p, hp⟩ := hfile
  unfold Control.entries at he
  rw [hp] at he
  split at he
  · simp at he
  · simp only [List.mem_singleton] at he
    rw [he]

theorem formDataEntries_key (form : Controls) (e : String × EntryValue)
    (he : e ∈ formDataEntries form) : e.1 ∈ formKeys form := by
  unfold formDataEntries at he
  obtain ⟨c, hc, hec⟩ := List.mem_flatMap.mp he
  exact List.mem_flatMap.mpr ⟨c, hc, entries_key c e hec⟩

theorem names_sublist (cs : Controls) :
    ((cs.map (·.name)).filter (· ≠ "")).Sublist (formKeys cs) := by
  induction cs with
  | nil => exact List.Sublist.refl _
  | cons c cs ih =>
    simp only [formKeys, List.flatMap_cons, List.map_cons, List.filter_cons] at ih ⊢
    by_cases hn : c.name = ""
    · simp only [hn, ne_eq, not_true_eq_false, decide_False, if_true, List.nil_append,
        Bool.false_eq_true, if_false]
      exact ih.trans (List.sublist_append_right _ _)
    · simp only [hn, ne_eq, not_false_eq_true, decide_True, if_true, if_false,
        List.singleton_append, List.cons_append]
      exact List.Sublist.cons₂ _ (ih.trans (List.sublist_append_right _ _))

theorem entries_owner (form : Controls) (hkeys : (formKeys form).Nodup) (c d : Control)
    (hc : c ∈ form) (hd : d ∈ form) (hname : c.name ≠ "")
    (e : String × EntryValue) (he : e ∈ d.entries) (hek : e.1 = c.name) : d = c := by
  by_contra hne
  unfold formKeys at hkeys
  have hdisj := (List.nodup_flatMap.mp hkeys).2
  have := List.Pairwise.forall (fun _ _ h => h.symm) hdisj hd hc hne
  have h1 := entries_key d e he
  rw [hek] at h1
  exact this h1 (by simp [hname])

theorem lastValue_formDataEntries (form : Controls) (c : Control) (hc : c ∈ form)
    (howner : ∀ d ∈ form, ∀ e ∈ d.entries, e.1 = c.name → d = c) :
    lastValue (formDataEntries form) c.name = lastValue c.entries c.name := by
  unfold formDataEntries
  induction form with
  | nil => simp at hc
  | cons d ds ih =>
    rw [List.flatMap_cons, lastValue_append]
    have howner' : ∀ d' ∈ ds, ∀ e ∈ d'.entries, e.1 = c.name → d' = c :=
      fun d' hd' => howner d' (List.mem_cons_of_mem _ hd')
    by_cases hmem : c ∈ ds
    · rw [ih hmem howner']
      cases hl : lastValue c.entries c.name with
      | some v => rfl
      | none =>
        by_cases hdc : d = c
        · rw [hdc]; exact hl
        · exact lastValue_none _ _ fun e he hek =>
            hdc (howner d (List.mem_cons_self _ _) e he hek)
    · have hdc : d = c := by
        rcases List.mem_cons.mp hc with h | h
        · exact h.symm
        · exact absurd h hmem
      have hnone : lastValue (ds.flatMap Control.entries) c.name = none := by
        apply lastValue_none
        intro e he hek
        obtain ⟨d', hd', hed'⟩ := List.mem_flatMap.mp he
        exact hmem (howner' d' hd' e hed' hek ▸ hd')
      rw [hnone, hdc]

theorem selectFirst_find (v : String) (os : List SelectOption) (h : ∃ o ∈ os, o.value = v) :
    ∃ o', (selectFirst v os).find? (·.selected) = some o' ∧ o'.value = v := by
  induction os with
  | nil => obtain ⟨o, ho, -⟩ := h; simp at ho
  | cons o os ih =>
    by_cases hov : o.value = v
    · exact ⟨{ o with selected := true }, by simp [selectFirst, hov], hov⟩
    · have : ∃ o ∈ os, o.value = v := by
        obtain ⟨x, hx, hxv⟩ := h
        rcases List.mem_cons.mp hx with rfl | hx
        · exact absurd hxv hov
        · exact ⟨x, hx, hxv⟩
      obtain ⟨o', ho', hv'⟩ := ih this
      exact ⟨o', by simp [selectFirst, hov, ho'], hv'⟩

theorem blank_eq (g c : Control) (h : blank g = blank c) :
    g.name = c.name ∧ g.inside = c.inside ∧
      ((∃ p, g.state = .file p) → ∃ p, c.state = .file p) := by
  cases g with
  | mk gn go gi gd gh gdn gr gs =>
    cases c with
    | mk cn co ci cd ch cdn cr cs =>
      simp only [blank, Control.mk.injEq] at h
      refine ⟨h.1, h.2.2.1, ?_⟩
      rintro ⟨p, hp⟩
      simp only at hp
      subst hp
      cases cs <;> simp at h
      exact ⟨_, rfl⟩

theorem setValue_restores (g c : Control) (hblank : blank g = blank c)
    (hnofile : ∀ e ∈ c.entries, e.2 ≠ .file)
    (hsaved : c.savedValue = some c.currentValue) :
    ∃ c', g.setValue c.currentValue = some c' ∧ c'.currentValue = c.currentValue := by
  cases g with
  | mk gn go gi gd gh gdn gr gs =>
    cases c with
    | mk cn co ci cd ch cdn cr cs =>
      simp only [blank, Control.mk.injEq] at hblank
      obtain ⟨-, -, -, -, -, -, -, hstate⟩ := hblank
      unfold Control.savedValue at hsaved
      by_cases h0 : (!co || cd || decide (cn = "")) = true
      · simp [Control.entries, h0, lastValue] at hsaved
      · cases cs with
        | text v =>
          cases gs <;> simp at hstate
          exact ⟨_, rfl, rfl⟩
        | checkable v checked =>
          cases gs <;> simp at hstate
          rw [← hstate]
          exact ⟨_, rfl, rfl⟩
        | button v => simp [Control.entries, h0, lastValue] at hsaved
        | unlisted v => simp [Control.entries, h0, lastValue] at hsaved
        | file p =>
          exfalso
          exact hnofile (cn, .file) (by simp [Control.entries, h0]) rfl
        | select os =>
          cases gs <;> simp at hstate
          rename_i os'
          obtain ⟨w, hw, hwv⟩ : ∃ w, lastValue
              (Control.entries ⟨cn, co, ci, cd, ch, cdn, cr, .select os⟩) cn = some w ∧
              valueAsRead w = Control.currentValue ⟨cn, co, ci, cd, ch, cdn, cr, .select os⟩ := by
            cases hl : lastValue (Control.entries ⟨cn, co, ci, cd, ch, cdn, cr, .select os⟩) cn with
            | none => rw [hl] at hsaved; simp at hsaved
            | some w => rw [hl] at hsaved; exact ⟨w, rfl, by simpa using hsaved⟩
          have hmem := lastValue_mem _ _ _ hw
          simp only [Control.entries, h0, Bool.false_eq_true, if_false, List.mem_map,
            List.mem_filter] at hmem
          obtain ⟨o, ⟨ho, -⟩, hoe⟩ := hmem
          have hov : o.value = Control.currentValue ⟨cn, co, ci, cd, ch, cdn, cr, .select os⟩ := by
            simp only [Prod.mk.injEq, true_and] at hoe
            rw [← hwv, ← hoe]
            rfl
          have hex : ∃ o' ∈ os', o'.value =
              Control.currentValue ⟨cn, co, ci, cd, ch, cdn, cr, .select os⟩ := by
            have : ({ o with selected := false } : SelectOption) ∈
                os.map fun o => { o with selected := false } := List.mem_map_of_mem _ ho
            rw [← hstate] at this
            obtain ⟨o', ho', hoo'⟩ := List.mem_map.mp this
            refine ⟨o', ho', ?_⟩
            have := congrArg SelectOption.value hoo'
            simp only at this
            rw [this, hov]
          obtain ⟨o'', hfind, hval⟩ := selectFirst_find _ os' hex
          refine ⟨_, rfl, ?_⟩
          simp only [Control.currentValue] at hfind hval ⊢
          rw [hfind]
          exact hval

/-- C8 (amended): when no name and no `dirname` key occurs twice among the
elements of a form, none of them is `__proto__` or holds a double quote, a
backslash, a line break or NUL, and no file input contributes an entry,
`saveFormData(form, id)` followed by `loadFormData` on a fresh identical form
sets to its value at save time every named field inside the form whose value
is what `FormData` reports for it.  `JSON.stringify` and `JSON.parse` may be
any pair that round-trips objects with string values. -/
theorem autosave_roundtrip (cssQuery : String → Controls → Except Unit (Option Nat))
    (jsonStringify : JSObject → String)
    (jsonParse : String → Option (List (String × String)))
    (form fresh : Controls) (formId : String) (store : Storage)
    (hcodec : ∀ data : JSObject, (data.map (·.1)).Nodup → (∀ e ∈ data, e.2 ≠ .file) →
      jsonParse (jsonStringify data) =
        some ((ownEntries data).map fun e => (e.1, valueAsRead e.2)))
    (htruthy : ∀ data : JSObject, jsonStringify data ≠ "")
    (hkeys : (formKeys form).Nodup)
    (hsafe : ∀ k ∈ formKeys form, selectorSafe k = true ∧ k ≠ "__proto__")
    (hnofile : ∀ e ∈ formDataEntries form, e.2 ≠ .file)
    (hfresh : fresh.map blank = form.map blank) :
    ∀ (i : Nat) (c : Control), form[i]? = some c → c.inside = true →
      c.savedValue = some c.currentValue →
      ∃ c', (loadFormData cssQuery jsonParse fresh formId
          (saveFormData jsonStringify form formId store))[i]? = some c' ∧
        c'.currentValue = c.currentValue := by
  intro i c hi hinside hsaved
  have hcmem : c ∈ form := List.getElem?_mem hi
  -- the object built from the entries
  have hproto : ∀ e ∈ formDataEntries form, e.1 ≠ "__proto__" :=
    fun e he => (hsafe e.1 (formDataEntries_key form e he)).2
  obtain ⟨hdnodup, hdkeys, hdmem⟩ := foldl_set_keys (formDataEntries form) [] List.nodup_nil
  generalize hdata : (formDataEntries form).foldl (fun (d : JSObject) e => d.set e.1 e.2) [] =
    data at hdnodup hdkeys hdmem
  have hdtext : ∀ e ∈ data, e.2 ≠ .file := by
    intro e he
    rcases hdmem e he with h | h
    · simp at h
    · exact hnofile e h
  have hperm := ownEntries_perm data
  -- the entries as the loop reads them
  generalize hes : ((ownEntries data).map fun e => (e.1, valueAsRead e.2)) = es
  have heskeys : es.map (·.1) = (ownEntries data).map (·.1) := by
    rw [← hes, List.map_map]; rfl
  have hesnodup : (es.map (·.1)).Nodup := by
    rw [heskeys]; exact (hperm.map _).nodup_iff.mpr hdnodup
  have heskey : ∀ k ∈ es.map (·.1), k ∈ (formDataEntries form).map (·.1) := by
    intro k hk
    rw [heskeys] at hk
    rcases hdkeys k ((hperm.map _).subset hk) with h | h
    · simp at h
    · exact h
  have hessafe : ∀ e ∈ es, selectorSafe e.1 = true := by
    intro e he
    obtain ⟨x, hx, hxe⟩ := List.mem_map.mp (heskey e.1 (List.mem_map_of_mem _ he))
    rw [← hxe]
    exact (hsafe x.1 (formDataEntries_key form x hx)).1
  have hlookup : ∀ k, es.lookup k = (lastValue (formDataEntries form) k).map valueAsRead := by
    intro k
    rw [← hes, lookup_map_value, lookup_perm _ _ k hperm
      ((hperm.map _).nodup_iff.mpr hdnodup), ← hdata, foldl_set_lookup k _ [] hproto]
    cases lastValue (formDataEntries form) k <;> rfl
  -- the fresh form
  have hfreshNames : fresh.map (·.name) = form.map (·.name) := by
    have h1 : ∀ l : Controls, (l.map blank).map (·.name) = l.map (·.name) := by
      intro l; rw [List.map_map]; rfl
    rw [← h1 fresh, ← h1 form, hfresh]
  have hnames : ((fresh.map (·.name)).filter (· ≠ "")).Nodup := by
    rw [hfreshNames]; exact (names_sublist form).nodup hkeys
  have hcounterpart : ∀ g ∈ fresh, ∃ d ∈ form, blank g = blank d := by
    intro g hg
    have : blank g ∈ form.map blank := hfresh ▸ List.mem_map_of_mem blank hg
    obtain ⟨d, hd, hdg⟩ := List.mem_map.mp this
    exact ⟨d, hd, hdg.symm⟩
  have hset : ∀ g ∈ fresh, g.inside = true → ∀ v, es.lookup g.name = some v →
      g.setValue v ≠ none := by
    intro g hg _ v hv hnone
    obtain ⟨d, hd, hgd⟩ := hcounterpart g hg
    obtain ⟨hname, -, hfile⟩ := blank_eq g d hgd
    have hgfile : ∃ p, g.state = .file p := by
      unfold Control.setValue at hnone
      cases hs : g.state <;> rw [hs] at hnone <;> simp at hnone
      exact ⟨_, rfl⟩
    have hkey : g.name ∈ es.map (·.1) :=
      List.mem_map.mpr ⟨(g.name, v), (lookup_eq_some_iff es _ _ hesnodup).mp hv, rfl⟩
    obtain ⟨x, hx, hxk⟩ := List.mem_map.mp (heskey _ hkey)
    obtain ⟨d', hd', hxd'⟩ := List.mem_flatMap.mp hx
    have hdne : d.name ≠ "" := by
      rw [← hname, ← hxk]
      intro h
      have := (hsafe x.1 (formDataEntries_key form x hx)).1
      rw [h] at this
      simp [selectorSafe] at this
    have hdd : d' = d := entries_owner form hkeys d d' hd hd' hdne x hxd' (by rw [hxk, hname])
    rw [hdd] at hxd'
    exact hnofile x hx (entries_file d x hxd' (hfile hgfile))
  have hload : loadFormData cssQuery jsonParse fresh formId
      (saveFormData jsonStringify form formId store) = fresh.map (applyEntries es) := by
    unfold loadFormData saveFormData
    simp only [getItem_setItem, hdata, htruthy, if_false, hcodec data hdnodup hdtext, hes]
    exact loadEntries_eq_map cssQuery es fresh hnames hesnodup hessafe hset
  -- the field itself
  have hgi : (fresh.map blank)[i]? = some (blank c) := by
    rw [hfresh, List.getElem?_map, hi]; rfl
  rw [List.getElem?_map] at hgi
  cases hg : fresh[i]? with
  | none => rw [hg] at hgi; simp at hgi
  | some g =>
    rw [hg] at hgi
    simp only [Option.map_some', Option.some.injEq] at hgi
    obtain ⟨hname, hin, -⟩ := blank_eq g c hgi
    have hcname : c.name ≠ "" := by
      intro h
      unfold Control.savedValue Control.entries at hsaved
      simp [h, lastValue] at hsaved
    have hcentries : ∀ e ∈ c.entries, e.2 ≠ .file :=
      fun e he => hnofile e (List.mem_flatMap.mpr ⟨c, hcmem, he⟩)
    have hlast : es.lookup g.name = some c.currentValue := by
      rw [hname, hlookup, lastValue_formDataEntries form c hcmem
        (fun d hd e he hek => entries_owner form hkeys c d hcmem hd hcname e he hek)]
      exact hsaved
    obtain ⟨c', hc', hval⟩ := setValue_restores g c hgi hcentries hsaved
    refine ⟨c', ?_, hval⟩
    rw [hload, List.getElem?_map, hg]
    simp only [Option.map_some', Option.some.injEq]
    unfold applyEntries
    rw [hlast]
    simp [hin, hinside, hc']

/-- An enabled text control of the form (not the hidden `_charset_` field) is
saved with its value. -/
theorem savedValue_text (c : Control) (v : String) (hstate : c.state = .text v)
    (howned : c.owned = true) (henabled : c.disabled = false) (hname : c.name ≠ "")
    (hdir : c.dirname ≠ c.name)
    (hcharset : ¬ (c.hidden = true ∧ c.name.toLower = "_charset_")) :
    c.savedValue = some c.currentValue := by
  have h1 : (c.hidden && decide (c.name.toLower = "_charset_")) = false := by
    cases hh : c.hidden
    · rfl
    · simp only [Bool.true_and, decide_eq_false_iff_not]
      exact fun h => hcharset ⟨hh, h⟩
  unfold Control.savedValue Control.entries Control.currentValue
  rw [hstate]
  by_cases hd : c.dirname = ""
  · simp [howned, henabled, hname, hd, h1, lastValue, valueAsRead]
  · simp [howned, henabled, hname, hd, h1, lastValue, valueAsRead, hdir]

/-- An enabled checked check box or radio button of the form is saved with its value. -/
theorem savedValue_checked (c : Control) (v : String) (hstate : c.state = .checkable v true)
    (howned : c.owned = true) (henabled : c.disabled = false) (hname : c.name ≠ "") :
    c.savedValue = some c.currentValue := by
  unfold Control.savedValue Control.entries Control.currentValue
  rw [hstate]
  simp [howned, henabled, hname, lastValue, valueAsRead]

/-- A disabled element is not saved: the draft holds no value for it. -/
theorem savedValue_disabled (c : Control) (h : c.disabled = true) : c.savedValue = none := by
  unfold Control.savedValue Control.entries
  simp [h, lastValue]

/-! ### The sample codec round-trips -/

theorem readString_quote (rest : List Char) : readString ('"' :: rest) = some ([], rest) := by
  rw [readString.eq_def]
  simp

theorem readString_backslash (d : Char) (rest : List Char) :
    readString ('\\' :: d :: rest) = (readString rest).map fun r => (d :: r.1, r.2) := by
  rw [readString.eq_def]
  simp

theorem readString_plain (c : Char) (rest : List Char) (h1 : c ≠ '"') (h2 : c ≠ '\\') :
    readString (c :: rest) = (readString rest).map fun r => (c :: r.1, r.2) := by
  rw [readString.eq_def]
  simp [h1, h2]

theorem readString_escape (s : List Char) (rest : List Char) :
    readString (s.flatMap escapeChar ++ '"' :: rest) = some (s, rest) := by
  induction s with
  | nil => exact readString_quote rest
  | cons c cs ih =>
    by_cases h1 : c = '"'
    · subst h1
      have : escapeChar '"' = ['\\', '"'] := by decide
      rw [List.flatMap_cons, this]
      simp only [List.cons_append, List.nil_append]
      rw [readString_backslash, ih]
      rfl
    · by_cases h2 : c = '\\'
      · subst h2
        have : escapeChar '\\' = ['\\', '\\'] := by decide
        rw [List.flatMap_cons, this]
        simp only [List.cons_append, List.nil_append]
        rw [readString_backslash, ih]
        rfl
      · have : escapeChar c = [c] := by simp [escapeChar, h1, h2]
        rw [List.flatMap_cons, this]
        simp only [List.cons_append, List.nil_append]
        rw [readString_plain c _ h1 h2, ih]
        rfl

theorem renderMembers_cons (k v : String) (es : List (String × EntryValue)) :
    renderMembers ((k, .text v) :: es) =
      '"' :: (k.toList.flatMap escapeChar ++ '"' :: ':' :: '"' ::
        (v.toList.flatMap escapeChar ++ '"' ::
          (match es with
           | [] => ['}']
           | e' :: es' => ',' :: renderMembers (e' :: es')))) := by
  cases es <;> simp [renderMembers, quoteString, renderValue]

theorem readMembers_render (es : List (String × String)) :
    ∀ (e : String × String) (fuel : Nat), es.length < fuel →
      readMembers fuel (renderMembers ((e :: es).map fun x => (x.1, EntryValue.text x.2))) =
        some (e :: es) := by
  induction es with
  | nil =>
    intro e fuel hfuel
    obtain ⟨n, rfl⟩ : ∃ n, fuel = n + 1 := ⟨fuel - 1, by omega⟩
    simp only [List.map_cons, List.map_nil]
    rw [renderMembers_cons, readMembers]
    simp only [readString_escape]
    rfl
  | cons e' es ih =>
    intro e fuel hfuel
    obtain ⟨n, rfl⟩ : ∃ n, fuel = n + 1 := ⟨fuel - 1, by omega⟩
    have ih' := ih e' n (by simp at hfuel; omega)
    simp only [List.map_cons] at ih' ⊢
    rw [renderMembers_cons, readMembers]
    simp only [readString_escape]
    rw [ih']
    rfl

theorem renderMembers_length (es : List (String × EntryValue)) :
    es.length ≤ (renderMembers es).length := by
  induction es with
  | nil => simp [renderMembers]
  | cons e es ih =>
    cases es with
    | nil =>
      simp only [renderMembers, List.length_cons, List.length_append, List.length_nil]
      omega
    | cons e' es' =>
      simp only [renderMembers, List.length_cons, List.length_append] at ih ⊢
      omega

theorem map_text_valueAsRead (l : List (String × EntryValue)) (h : ∀ e ∈ l, e.2 ≠ .file) :
    (l.map fun e => (e.1, valueAsRead e.2)).map (fun x => (x.1, EntryValue.text x.2)) = l := by
  rw [List.map_map]
  conv_rhs => rw [← List.map_id l]
  apply List.map_congr_left
  intro e he
  obtain ⟨k, v⟩ := e
  cases v with
  | text s => rfl
  | file => exact absurd rfl (h _ he)

theorem sampleParse_stringify (data : JSObject) (htext : ∀ e ∈ data, e.2 ≠ .file) :
    sampleParse (sampleStringify data) =
      some ((ownEntries data).map fun e => (e.1, valueAsRead e.2)) := by
  have hown : ∀ e ∈ ownEntries data, e.2 ≠ .file :=
    fun e he => htext e ((ownEntries_perm data).subset he)
  have hmap := map_text_valueAsRead (ownEntries data) hown
  unfold sampleParse sampleStringify
  show (match '{' :: renderMembers (ownEntries data) with
    | ['{', '}'] => some []
    | '{' :: rest => readMembers rest.length rest
    | _ => none) = some ((ownEntries data).map fun e => (e.1, valueAsRead e.2))
  generalize ownEntries data = own at hmap
  cases hl : own.map (fun e => (e.1, valueAsRead e.2)) with
  | nil =>
    have : own = [] := by simpa using hl
    subst this
    rfl
  | cons e es =>
    rw [hl] at hmap
    have hlen := renderMembers_length own
    have hlen' : own.length = es.length + 1 := by
      have := congrArg List.length hl
      simpa using this
    have hread := readMembers_render es e (renderMembers own).length (by omega)
    rw [hmap] at hread
    obtain ⟨k, v⟩ := e
    rw [← hmap] at hread ⊢
    simp only [List.map_cons] at hread ⊢
    rw [renderMembers_cons] at hread ⊢
    exact hread

theorem sampleStringify_ne_empty (data : JSObject) : sampleStringify data ≠ "" := by
  intro h
  have := congrArg String.length h
  simp [sampleStringify, String.length] at this

theorem autosave_roundtrip_witness :
    ∃ c', (loadFormData cssRejects sampleParse
        [textInput "name" "", textInput "email" ""] "draft1"
        (saveFormData sampleStringify
          [textInput "name" "x", textInput "email" "a@b.com"] "draft1" []))[1]? = some c' ∧
      c'.currentValue = (textInput "email" "a@b.com").currentValue :=
  autosave_roundtrip cssRejects sampleStringify sampleParse
    [textInput "name" "x", textInput "email" "a@b.com"]
    [textInput "name" "", textInput "email" ""] "draft1" []
    (fun data _ htext => sampleParse_stringify data htext) sampleStringify_ne_empty
    (by decide) (by decide) (by decide) (by decide) 1 (textInput "email" "a@b.com") rfl rfl
    (by decide)

/-- C8 as stated fails: the value of a field named `__proto__` is not written
to the draft, and neither is the value of a disabled field, so loading into a
fresh identical form leaves such a field at its default. -/
theorem autosave_loses_fields :
    (saveFormData sampleStringify [textInput "__proto__" "x"] "draft1" [] =
        [("form_draft1", "\x7b\x7d")] ∧
      loadFormData cssRejects sampleParse [textInput "__proto__" ""] "draft1"
          (saveFormData sampleStringify [textInput "__proto__" "x"] "draft1" []) =
        [textInput "__proto__" ""]) ∧
    (saveFormData sampleStringify
        [{ textInput "owner" "x" with disabled := true }] "draft1" [] =
        [("form_draft1", "\x7b\x7d")] ∧
      loadFormData cssRejects sampleParse
          [{ textInput "owner" "" with disabled := true }] "draft1"
          (saveFormData sampleStringify
            [{ textInput "owner" "x" with disabled := true }] "draft1" []) =
        [{ textInput "owner" "" with disabled := true }]) := by
  refine ⟨⟨?_, ?_⟩, ?_, ?_⟩ <;> decide

end LandRegistry
